import Mathlib

/-!
Shallow embedding of the jvalue (JSON DOM) core of libpbnjson
(src/pbnjson_c/jobject.c and src/pbnjson_c/jtraverse.c), together with
theorems settling the specification claims about it.

Modelling conventions:
* A C `jvalue` tree is an inductive `JValue`.  Containers (`jarray`,
  `jobject`) carry a `Nat` identity modelling their heap address, because
  the cycle guard `check_insert_sanity` compares node identities
  (pointer equality), not structure.  In a well-formed heap two live
  containers never share an address, and a leaf never has the address of
  a container, so identity comparison against a container parent is
  `sameContainer`.
* Array slots are `Option JValue`: a `none` slot models a C `NULL`
  pointer stored in the array bucket (`jarray_get` reads such a slot
  back as the `JINVALID` sentinel).
* A C `double` is modelled by `FloatV`: either one of the IEEE-754
  special values (`nan`, `inf`, `ninf`) or a finite value, idealised to
  a rational.  Comparisons on finite doubles are order-faithful.
* Byte strings (`raw_buffer` contents) are `List Nat` of byte values;
  `memcmp` is modelled byte by byte.
* Reference counting is not modelled as state; where a claim talks about
  release calls, the operation models return the number of `j_release`
  invocations performed on each consumed argument.
-/

namespace LibPbnJson

/-- Byte strings: the contents of a `raw_buffer`. -/
abbrev Bytes := List Nat

/-- A C `double` value: IEEE-754 special values or a finite value
(idealised to a rational, which is order-faithful for comparisons). -/
inductive FloatV where
  | nan
  | inf
  | ninf
  | fin (q : ℚ)
deriving DecidableEq

/-- The three internal numeric forms of a `jnum` (`NUM_INT`, `NUM_FLOAT`,
`NUM_RAW`).  A `NUM_FLOAT` payload is finite (see `jnumber_create_f64`,
which refuses NaN and infinities), hence a rational in the model. -/
inductive JNum where
  | int (i : Int)
  | float (q : ℚ)
  | raw (s : Bytes)
deriving DecidableEq

/-- Allocation discipline of a `jstring` value, distinguishing the shared
empty-string singleton `JEMPTY_STR` from heap-allocated strings. -/
inductive StrAlloc where
  | singletonEmpty
  | inlineCopy
  | nocopy
deriving DecidableEq

/-- A `jvalue` tree.  `jnull` is the `JNULL` singleton and `jinvalid` the
`JINVALID` sentinel (both have `m_type == JV_NULL` in the C source).
Containers carry their heap identity. -/
inductive JValue where
  | jnull
  | jinvalid
  | jbool (b : Bool)
  | jnum (n : JNum)
  | jstr (alloc : StrAlloc) (s : Bytes)
  | jarr (id : Nat) (slots : List (Option JValue))
  | jobj (id : Nat) (entries : List (Bytes × JValue))

/-- `jarray_get` on a slot: a `NULL` slot reads back as `JINVALID`. -/
def slotValue (s : Option JValue) : JValue := s.getD .jinvalid

/- Size measure used for termination of the recursive operations
(a positive structural size ignoring container identities). -/
mutual

def jsize : JValue → Nat
  | .jarr _ slots => 1 + jsizeSlots slots
  | .jobj _ es => 1 + jsizeEntries es
  | _ => 1

def jsizeSlots : List (Option JValue) → Nat
  | [] => 2
  | s :: rest => 1 + jsizeSlot s + jsizeSlots rest

def jsizeSlot : Option JValue → Nat
  | none => 1
  | some v => jsize v

def jsizeEntries : List (Bytes × JValue) → Nat
  | [] => 2
  | (_, v) :: rest => 1 + jsize v + jsizeEntries rest

end

theorem jsize_pos (v : JValue) : 0 < jsize v := by
  cases v <;> simp [jsize]

theorem jsizeSlots_pos (l : List (Option JValue)) : 0 < jsizeSlots l := by
  cases l <;> simp [jsizeSlots]

theorem jsizeEntries_pos (l : List (Bytes × JValue)) : 0 < jsizeEntries l := by
  cases l <;> simp [jsizeEntries]

theorem jsize_slotValue_lt_cons (s : Option JValue) (rest : List (Option JValue)) :
    jsize (slotValue s) < jsizeSlots (s :: rest) := by
  cases s with
  | none =>
      have := jsizeSlots_pos rest
      simp [slotValue, jsize, jsizeSlots, jsizeSlot] <;> omega
  | some v =>
      have := jsizeSlots_pos rest
      simp [slotValue, jsizeSlots, jsizeSlot] <;> omega

theorem jsizeSlots_tail_lt (s : Option JValue) (rest : List (Option JValue)) :
    jsizeSlots rest < jsizeSlots (s :: rest) := by
  have : 0 < jsizeSlot s := by cases s <;> simp [jsizeSlot, jsize_pos]
  simp [jsizeSlots] <;> omega

theorem jsize_entry_lt (k : Bytes) (v : JValue) (rest : List (Bytes × JValue)) :
    jsize v < jsizeEntries ((k, v) :: rest) := by
  have := jsizeEntries_pos rest
  simp [jsizeEntries] <;> omega

theorem jsizeEntries_tail_lt (p : Bytes × JValue) (rest : List (Bytes × JValue)) :
    jsizeEntries rest < jsizeEntries (p :: rest) := by
  obtain ⟨k, v⟩ := p
  have := jsize_pos v
  simp [jsizeEntries] <;> omega

/-! ### Basic predicates (jobject.c lines 139-152, 374-412, 551-558, 959-966, 1444-1493) -/

/-- `jis_valid_unsafe`: `val != &JINVALID && val != NULL`.  The argument is
an `Option JValue` because a `jvalue_ref` may be the C `NULL` pointer. -/
def jis_valid_unsafe : Option JValue → Bool
  | none => false
  | some .jinvalid => false
  | some _ => true

/-- `jis_valid` merely forwards to `jis_valid_unsafe`. -/
def jis_valid (v : Option JValue) : Bool := jis_valid_unsafe v

/-- `jis_null`: `val == &JNULL || !jis_valid_unsafe(val)`. -/
def jis_null (v : Option JValue) : Bool :=
  (match v with | some .jnull => true | _ => false) || ! jis_valid_unsafe v

def jis_object : JValue → Bool
  | .jobj .. => true
  | _ => false

def jis_array : JValue → Bool
  | .jarr .. => true
  | _ => false

def jis_string : JValue → Bool
  | .jstr .. => true
  | _ => false

def jis_number : JValue → Bool
  | .jnum _ => true
  | _ => false

/-- `jis_const`: the values `j_release` never destroys — `JV_NULL` and
`JV_BOOL` values (all of which are the static singletons) and the shared
empty-string singleton `JEMPTY_STR`. -/
def jis_const : JValue → Bool
  | .jnull => true
  | .jinvalid => true
  | .jbool _ => true
  | .jstr .singletonEmpty _ => true
  | _ => false

/-- Whether `j_release` on a last reference actually destroys the value:
it short-circuits for `jis_const` values and frees everything else. -/
def j_release_frees (v : JValue) : Bool := !jis_const v

/-- `jvalue_copy` bumps the reference count and returns the same
reference (identity in the tree model). -/
def jvalue_copy (v : JValue) : JValue := v

/-! ### Strings (jobject.c lines 1415-1660) -/

/-- `jstring_get_fast` / the `m_data` buffer of a string (empty for
non-strings, where the C code logs and returns a zero buffer). -/
def jstring_bytes : JValue → Bytes
  | .jstr _ s => s
  | _ => []

/-- `jstring_size`: the declared length of the string's buffer
(0 for non-strings). -/
def jstring_size (v : JValue) : Nat := (jstring_bytes v).length

/-- `jstring_empty` returns the shared singleton `JEMPTY_STR`. -/
def jstring_empty : JValue := .jstr .singletonEmpty []

/-- `jstring_create_copy`: unconditionally allocates a fresh
`jstring_inline` (header plus copied bytes), even when the input length
is zero; it never returns the `JEMPTY_STR` singleton. -/
def jstring_create_copy (s : Bytes) : JValue := .jstr .inlineCopy s

/-- `jstring_create_nocopy_full`: a C `NULL` buffer (`none`) yields the
invalid sentinel; a zero-length buffer yields the `JEMPTY_STR` singleton
(after invoking the deallocator on the buffer, not modelled); otherwise a
fresh no-copy string referencing the caller's buffer. -/
def jstring_create_nocopy_full (buf : Option Bytes) : JValue :=
  match buf with
  | none => .jinvalid
  | some s => if s.length = 0 then .jstr .singletonEmpty [] else .jstr .nocopy s

/-- `jstring_create_nocopy` forwards with a `NULL` deallocator. -/
def jstring_create_nocopy (buf : Option Bytes) : JValue :=
  jstring_create_nocopy_full buf

/-! ### Numbers (jobject.c lines 1662-2026) -/

/-- `isnan` on the modelled double. -/
def isnanF : FloatV → Bool
  | .nan => true
  | _ => false

/-- `isinf` on the modelled double. -/
def isinfF : FloatV → Bool
  | .inf => true
  | .ninf => true
  | _ => false

/-- IEEE-754 `>` on modelled doubles: every comparison involving NaN is
false; infinities compare above/below all finite values. -/
def fgt : FloatV → FloatV → Bool
  | .nan, _ => false
  | _, .nan => false
  | .inf, .inf => false
  | .inf, _ => true
  | .ninf, _ => false
  | .fin _, .inf => false
  | .fin _, .ninf => true
  | .fin q, .fin r => decide (r < q)

/-- The C pattern `a > b ? 1 : (a < b ? -1 : 0)` on doubles
(`a < b` is `fgt b a`). -/
def fcmp (a b : FloatV) : Int :=
  if fgt a b then 1 else if fgt b a then -1 else 0

/-- The same pattern on exact integers. -/
def icmp (a b : Int) : Int :=
  if b < a then 1 else if a < b then -1 else 0

/-- The sentinel `J_INVALID_VALUE` (-50), returned by the number
comparisons only when the stored numeric kind is unrecognised
(memory corruption). -/
def J_INVALID_VALUE : Int := -50

/-- A decimal digit byte. -/
def isDigit (b : Nat) : Bool := 48 ≤ b && b ≤ 57

/-- The natural number denoted by a non-empty all-digit byte string. -/
def digitsToNat? (s : Bytes) : Option Nat :=
  if s ≠ [] && s.all isDigit then
    some (s.foldl (fun acc b => acc * 10 + (b - 48)) 0)
  else none

/-- Modelled from the spec: `jstr_to_i64` lives in
src/pbnjson_c/jvalue/num_conversion.c, which is not among the provided
sources.  Spec §4.2: "Raw → int64 first (exact if it fits)".  The model
accepts an optional sign followed by decimal digits and requires the
value to fit in a 64-bit signed integer; anything else fails. -/
def jstr_to_i64 (s : Bytes) : Option Int :=
  let core : Bytes → Int → Option Int := fun ds sign =>
    (digitsToNat? ds).bind fun n =>
      let v : Int := sign * n
      if -(2 ^ 63) ≤ v ∧ v < 2 ^ 63 then some v else none
  match s with
  | 45 :: rest => core rest (-1)
  | _ => core s 1

/-- Modelled from the spec: `jstr_to_double` lives in
src/pbnjson_c/jvalue/num_conversion.c, which is not among the provided
sources.  Spec §4.2: "on failure, raw → double".  The model accepts an
optional sign, an integer part and an optional fractional part; the
result is the denoted (finite) value.  Strings that are not in this
decimal format fail, writing no value at all. -/
def jstr_to_double (s : Bytes) : Option ℚ :=
  let core : Bytes → Option ℚ := fun t =>
    match t.splitOn 46 with
    | [ip] => (digitsToNat? ip).map fun n => (n : ℚ)
    | [ip, fp] =>
        (digitsToNat? ip).bind fun n =>
          (digitsToNat? fp).map fun f => (n : ℚ) + (f : ℚ) / (10 : ℚ) ^ fp.length
    | _ => none
  match s with
  | 45 :: rest => (core rest).map Neg.neg
  | _ => core s

/-- `jnumber_create_f64`: NaN and infinities have no JSON representation
and yield the invalid sentinel; a finite double becomes a `NUM_FLOAT`. -/
def jnumber_create_f64 (d : FloatV) : JValue :=
  if isnanF d then .jinvalid
  else if isinfF d then .jinvalid
  else
    match d with
    | .fin q => .jnum (.float q)
    | _ => .jinvalid

/-- `jnumber_create_i64`. -/
def jnumber_create_i64 (i : Int) : JValue := .jnum (.int i)

/-- `jnumber_compare_i64` (jobject.c lines 1829-1860).  `env` models the
value read from the uninitialised local `asFloat` when a raw string
converts to neither int64 nor double (the C code logs the failure and
proceeds with the indeterminate value). -/
def jnumber_compare_i64 (n : JNum) (toCompare : Int) (env : FloatV) : Int :=
  match n with
  | .float q => fcmp (.fin q) (.fin (toCompare : ℚ))
  | .int i => icmp i toCompare
  | .raw s =>
      match jstr_to_i64 s with
      | some asInt => icmp asInt toCompare
      | none =>
          let asFloat := ((jstr_to_double s).map FloatV.fin).getD env
          fcmp asFloat (.fin (toCompare : ℚ))

/-- `jnumber_compare_f64` (jobject.c lines 1862-1893), with `env` as in
`jnumber_compare_i64`. -/
def jnumber_compare_f64 (n : JNum) (toCompare : FloatV) (env : FloatV) : Int :=
  match n with
  | .float q => fcmp (.fin q) toCompare
  | .int i => fcmp (.fin (i : ℚ)) toCompare
  | .raw s =>
      match jstr_to_i64 s with
      | some asInt => fcmp (.fin (asInt : ℚ)) toCompare
      | none =>
          let asFloat := ((jstr_to_double s).map FloatV.fin).getD env
          fcmp asFloat toCompare

/-- `jnumber_compare` (jobject.c lines 1797-1827): dispatch on the second
operand's numeric kind; a raw second operand is converted to int64 if
possible, otherwise to double (an unconvertible raw is logged and the
comparison proceeds with the indeterminate `asFloat`, modelled by
`env`). -/
def jnumber_compare (n toCompare : JNum) (env : FloatV) : Int :=
  match toCompare with
  | .float q => jnumber_compare_f64 n (.fin q) env
  | .int i => jnumber_compare_i64 n i env
  | .raw s =>
      match jstr_to_i64 s with
      | some asInt => jnumber_compare_i64 n asInt env
      | none =>
          let asFloat := ((jstr_to_double s).map FloatV.fin).getD env
          jnumber_compare_f64 n asFloat env

/-! ### String comparison (jobject.c lines 1597-1660) -/

/-- `memcmp` over the common prefix: the (signed) difference of the first
differing bytes, 0 if one buffer is a prefix of the other.  This is
`memcmp(s, t, min(|s|,|t|))` as used by `jstring_compare`. -/
def memcmpInt : Bytes → Bytes → Int
  | x :: xs, y :: ys => if x ≠ y then (x : Int) - (y : Int) else memcmpInt xs ys
  | _, _ => 0

/-- `jstring_compare`: `memcmp` over the shorter length, then the length
difference as tie-breaker. -/
def jstring_compare (s t : Bytes) : Int :=
  let result := memcmpInt s t
  if result ≠ 0 then result else (s.length : Int) - (t.length : Int)

/-- `jstring_equal_internal3`: same buffer pointer, or equal lengths and
`memcmp == 0` (content equality). -/
def jstring_equal_bytes (s t : Bytes) : Bool :=
  s.length == t.length && memcmpInt s t == 0

/-! ### Object entry bookkeeping (GHashTable with ObjKeyHash/ObjKeyEqual) -/

/-- `g_hash_table_lookup` keyed by string content (`ObjKeyEqual` compares
key bytes). -/
def jobject_lookup (es : List (Bytes × JValue)) (k : Bytes) : Option JValue :=
  (es.find? (fun p => p.1 == k)).map Prod.snd

/-- The looked-up value as the C comparison code uses it. -/
def lookupD (es : List (Bytes × JValue)) (k : Bytes) : JValue :=
  (jobject_lookup es k).getD .jinvalid

/-- `g_hash_table_replace`: replace the entry with a content-equal key,
or add a new entry. -/
def obj_replace : List (Bytes × JValue) → Bytes → JValue → List (Bytes × JValue)
  | [], k, v => [(k, v)]
  | p :: rest, k, v => if p.1 == k then (k, v) :: rest else p :: obj_replace rest k v

/-! ### The cycle guard (jobject.c lines 434-465) -/

/-- Pointer equality of a candidate child against a container parent:
true exactly when both are containers with the same heap identity (the
parent of `check_insert_sanity` is always an object or an array, so a
non-container child can never be pointer-equal to it). -/
def sameContainer : JValue → JValue → Bool
  | .jarr i _, .jarr j _ => i == j
  | .jobj i _, .jobj j _ => i == j
  | _, _ => false

/- `check_insert_sanity(parent, child)`: reject if the child IS the
parent, then recurse into the child's elements.  Array elements are read
through `jarray_get`, so a `NULL` slot is seen as `JINVALID`. -/
mutual

def check_insert_sanity (parent child : JValue) : Bool :=
  if sameContainer child parent then false
  else
    match child with
    | .jarr _ slots => check_insert_slots parent slots
    | .jobj _ es => check_insert_entries parent es
    | _ => true
termination_by (jsize child, 0)
decreasing_by
  all_goals exact Prod.Lex.left _ _ (by simp [jsize] <;> omega)

def check_insert_slots (parent : JValue) : List (Option JValue) → Bool
  | [] => true
  | s :: rest => check_insert_sanity parent (slotValue s) && check_insert_slots parent rest
termination_by slots => (jsizeSlots slots, 1)
decreasing_by
  · exact Prod.Lex.left _ _ (jsize_slotValue_lt_cons _ _)
  · exact Prod.Lex.left _ _ (jsizeSlots_tail_lt _ _)

def check_insert_entries (parent : JValue) : List (Bytes × JValue) → Bool
  | [] => true
  | (_, v) :: rest => check_insert_sanity parent v && check_insert_entries parent rest
termination_by es => (jsizeEntries es, 1)
decreasing_by
  · exact Prod.Lex.left _ _ (jsize_entry_lt _ _ _)
  · exact Prod.Lex.left _ _ (jsizeEntries_tail_lt _ _)

end

/- The spec-side reachability predicate: `occursNode target tree` holds
when the node `target` (a container, compared by identity) occurs in
`tree`'s subtree — i.e. `target` is reachable from `tree` via the child
relation (including `tree` itself). -/
mutual

def occursNode (target tree : JValue) : Bool :=
  sameContainer tree target ||
  match tree with
  | .jarr _ slots => occursSlots target slots
  | .jobj _ es => occursEntries target es
  | _ => false
termination_by (jsize tree, 0)
decreasing_by
  all_goals exact Prod.Lex.left _ _ (by simp [jsize] <;> omega)

def occursSlots (target : JValue) : List (Option JValue) → Bool
  | [] => false
  | s :: rest => occursNode target (slotValue s) || occursSlots target rest
termination_by slots => (jsizeSlots slots, 1)
decreasing_by
  · exact Prod.Lex.left _ _ (jsize_slotValue_lt_cons _ _)
  · exact Prod.Lex.left _ _ (jsizeSlots_tail_lt _ _)

def occursEntries (target : JValue) : List (Bytes × JValue) → Bool
  | [] => false
  | (_, v) :: rest => occursNode target v || occursEntries target rest
termination_by es => (jsizeEntries es, 1)
decreasing_by
  · exact Prod.Lex.left _ _ (jsize_entry_lt _ _ _)
  · exact Prod.Lex.left _ _ (jsizeEntries_tail_lt _ _)

end

theorem check_insert_slots_eq_not_occurs (parent : JValue) (n : Nat)
    (ih : ∀ c : JValue, jsize c ≤ n → check_insert_sanity parent c = !occursNode parent c) :
    ∀ slots : List (Option JValue), jsizeSlots slots ≤ n →
      check_insert_slots parent slots = !occursSlots parent slots := by
  intro slots
  induction slots with
  | nil => intro _; simp [check_insert_slots, occursSlots]
  | cons s rest ihs =>
      intro h
      have h1 : jsize (slotValue s) ≤ n :=
        le_trans (Nat.le_of_lt (jsize_slotValue_lt_cons s rest)) h
      have h2 : jsizeSlots rest ≤ n :=
        le_trans (Nat.le_of_lt (jsizeSlots_tail_lt s rest)) h
      simp only [check_insert_slots, occursSlots, ih (slotValue s) h1, ihs h2]
      simp

theorem check_insert_entries_eq_not_occurs (parent : JValue) (n : Nat)
    (ih : ∀ c : JValue, jsize c ≤ n → check_insert_sanity parent c = !occursNode parent c) :
    ∀ es : List (Bytes × JValue), jsizeEntries es ≤ n →
      check_insert_entries parent es = !occursEntries parent es := by
  intro es
  induction es with
  | nil => intro _; simp [check_insert_entries, occursEntries]
  | cons p rest ihs =>
      obtain ⟨k, v⟩ := p
      intro h
      have h1 : jsize v ≤ n := le_trans (Nat.le_of_lt (jsize_entry_lt k v rest)) h
      have h2 : jsizeEntries rest ≤ n :=
        le_trans (Nat.le_of_lt (jsizeEntries_tail_lt (k, v) rest)) h
      simp only [check_insert_entries, occursEntries, ih v h1, ihs h2]
      simp

/-- `check_insert_sanity` succeeds exactly when the parent is not
reachable from the candidate child. -/
theorem check_insert_sanity_eq_not_occurs (parent child : JValue) :
    check_insert_sanity parent child = !occursNode parent child := by
  have H : ∀ n, ∀ c : JValue, jsize c ≤ n →
      check_insert_sanity parent c = !occursNode parent c := by
    intro n
    induction n with
    | zero => intro c h; have := jsize_pos c; omega
    | succ n ih =>
        intro c hch
        cases c with
        | jnull => simp only [check_insert_sanity, occursNode]; cases parent <;> simp [sameContainer]
        | jinvalid => simp only [check_insert_sanity, occursNode]; cases parent <;> simp [sameContainer]
        | jbool b => simp only [check_insert_sanity, occursNode]; cases parent <;> simp [sameContainer]
        | jnum m => simp only [check_insert_sanity, occursNode]; cases parent <;> simp [sameContainer]
        | jstr a s => simp only [check_insert_sanity, occursNode]; cases parent <;> simp [sameContainer]
        | jarr id slots =>
            have hs : jsizeSlots slots ≤ n := by
              have he : jsize (JValue.jarr id slots) = 1 + jsizeSlots slots := rfl
              omega
            have hrec := check_insert_slots_eq_not_occurs parent n ih slots hs
            simp only [check_insert_sanity, occursNode]
            cases hsc : sameContainer (JValue.jarr id slots) parent
            · simpa [hsc] using hrec
            · simp [hsc]
        | jobj id es =>
            have hs : jsizeEntries es ≤ n := by
              have he : jsize (JValue.jobj id es) = 1 + jsizeEntries es := rfl
              omega
            have hrec := check_insert_entries_eq_not_occurs parent n ih es hs
            simp only [check_insert_sanity, occursNode]
            cases hsc : sameContainer (JValue.jobj id es) parent
            · simpa [hsc] using hrec
            · simp [hsc]
  exact H (jsize child) child le_rfl

/-! ### Object and array mutators (jobject.c lines 741-1391)

Each operation returns its success flag, the updated container (the
original one on failure), and the number of `j_release` calls it made on
each consumed argument (a release of a C `NULL` pointer or of a
singleton is a no-op inside `j_release`, but still counts as a
consumption of the caller's reference). -/

/-- Result of `jobject_put`. -/
structure JPutResult where
  ok : Bool
  obj : JValue
  keyRel : Nat
  valRel : Nat

/-- Result of the array insertion operations. -/
structure JArrResult where
  ok : Bool
  arr : JValue
  valRel : Nat

/-- `jobject_put` (jobject.c lines 781-837).  `key` and `val` are
`Option JValue` because both may be C `NULL` pointers.  The
`m_members == NULL` early exit (a half-constructed object after an
allocation failure) is not representable in the model: every modelled
object has its hash table. -/
def jobject_put (obj : JValue) (key val : Option JValue) : JPutResult :=
  match obj with
  | .jobj id es =>
      match key with
      | none => ⟨false, obj, 1, 1⟩
      | some k =>
          if !jis_string k then ⟨false, obj, 1, 1⟩
          else if jstring_size k == 0 then ⟨false, obj, 1, 1⟩
          else
            let v : JValue :=
              match val with
              | none => .jnull
              | some w => if !jis_valid (some w) then .jnull else w
            if !check_insert_sanity obj v then ⟨false, obj, 1, 1⟩
            else ⟨true, .jobj id (obj_replace es (jstring_bytes k) v), 0, 0⟩
  | _ => ⟨false, obj, 1, 1⟩

/-- `jobject_get_exists` by key bytes, on the result view. -/
def jobject_get (obj : JValue) (k : Bytes) : JValue :=
  match obj with
  | .jobj _ es => (jobject_lookup es k).getD .jinvalid
  | _ => .jinvalid

/-- `jarray_size` (the `m_size` field; 0 for non-arrays). -/
def jarray_size : JValue → Nat
  | .jarr _ slots => slots.length
  | _ => 0

/-- `valid_index_bounded`. -/
def valid_index_bounded (arr : JValue) (i : Int) : Bool :=
  jis_array arr && decide (0 ≤ i) && decide (i < (jarray_size arr : Int))

/-- `jarray_get` (jobject.c lines 1067-1078): out-of-bounds indices and
`NULL` slots read back as the invalid sentinel. -/
def jarray_get (arr : JValue) (i : Int) : JValue :=
  match arr with
  | .jarr _ slots =>
      if i < 0 then .jinvalid else slotValue (slots.getD i.toNat none)
  | _ => .jinvalid

/-- The slot update done by `jarray_put_unsafe` after the capacity
expansion: overwrite slot `i` (releasing the old occupant), or extend
the array to size `i+1`, the newly exposed slots being `NULL`. -/
def jarray_put_slots (slots : List (Option JValue)) (i : Nat) (s : Option JValue) :
    List (Option JValue) :=
  if i < slots.length then slots.set i s
  else slots ++ List.replicate (i - slots.length) none ++ [s]

/-- `jarray_put_unsafe` (jobject.c lines 1144-1167): cycle guard, then
capacity expansion (which cannot fail in the model), then the slot
store.  On failure the array is untouched. -/
def jarray_put_unsafe (arr : JValue) (i : Nat) (s : Option JValue) : Bool × JValue :=
  match arr with
  | .jarr id slots =>
      if !check_insert_sanity arr (slotValue s) then (false, arr)
      else (true, .jarr id (jarray_put_slots slots i s))
  | _ => (false, arr)

/-- `jarray_put` (jobject.c lines 1187-1215): releases `val` once on any
failure path. -/
def jarray_put (arr : JValue) (index : Int) (val : Option JValue) : JArrResult :=
  if !jis_array arr then ⟨false, arr, 1⟩
  else if index < 0 then ⟨false, arr, 1⟩
  else
    let v : Option JValue := match val with | none => some .jnull | some w => some w
    match jarray_put_unsafe arr index.toNat v with
    | (true, a) => ⟨true, a, 0⟩
    | (false, _) => ⟨false, arr, 1⟩

/-- `jarray_append` (jobject.c lines 1217-1230): both failure paths (the
`CHECK_CONDITION` early return for a non-array and a failing
`jarray_put_unsafe`) return `false` without releasing `val`. -/
def jarray_append (arr : JValue) (val : Option JValue) : JArrResult :=
  if !jis_array arr then ⟨false, arr, 0⟩
  else
    let v : Option JValue := match val with | none => some .jnull | some w => some w
    match jarray_put_unsafe arr (jarray_size arr) v with
    | (true, a) => ⟨true, a, 0⟩
    | (false, _) => ⟨false, arr, 0⟩

/-- `jarray_set` (jobject.c lines 1169-1185): takes a borrowed value,
copies the reference (`jvalue_copy`) and stores it. -/
def jarray_set (arr : JValue) (index : Int) (val : Option JValue) : Bool × JValue :=
  if !jis_array arr then (false, arr)
  else if index < 0 then (false, arr)
  else
    let v : JValue := match val with | none => .jnull | some w => w
    jarray_put_unsafe arr index.toNat (some (jvalue_copy v))

/-- The body of `jarray_insert` after its checks: `jarray_put_unsafe`
appends the `JINVALID` sentinel at position `size`, then every element
from `index` up is shifted one slot towards the end and the new value is
stored at `index` (for `index > size` no element is shifted and the
value lands in the final slot). -/
def jarray_insert_slots (slots : List (Option JValue)) (i : Nat) (s : Option JValue) :
    List (Option JValue) :=
  if i < slots.length then slots.take i ++ s :: slots.drop i
  else slots ++ [s]

/-- `jarray_insert` (jobject.c lines 1246-1277): none of the failure
paths (non-array, negative index, cycle rejection) releases `val`. -/
def jarray_insert (arr : JValue) (index : Int) (val : Option JValue) : JArrResult :=
  if !jis_array arr then ⟨false, arr, 0⟩
  else if index < 0 then ⟨false, arr, 0⟩
  else if !check_insert_sanity arr (slotValue val) then ⟨false, arr, 0⟩
  else
    match arr with
    | .jarr id slots => ⟨true, .jarr id (jarray_insert_slots slots index.toNat val), 0⟩
    | _ => ⟨false, arr, 0⟩

/-- `jarray_remove_unsafe` (jobject.c lines 1080-1106): release the
occupant, shift the following elements down, decrement the size. -/
def jarray_remove_unsafe (arr : JValue) (i : Nat) : JValue :=
  match arr with
  | .jarr id slots => .jarr id (slots.eraseIdx i)
  | _ => arr

/-! ### Splicing (jobject.c lines 1279-1391) -/

/-- The ownership modes of `jarray_splice`. -/
inductive JSpliceOwnership where
  | transfer
  | nochange
  | copy

/-- `jarray_splice_check_insert_sanity`: every element of the source
array (read through `jarray_get`, so `NULL` slots appear as `JINVALID`)
must pass the cycle guard against the destination. -/
def jarray_splice_check_insert_sanity (arr arr2 : JValue) : Bool :=
  match arr2 with
  | .jarr _ ss => ss.all fun s => check_insert_sanity arr (slotValue s)
  | _ => true

/-- The reference actually inserted for one source slot: `SPLICE_COPY`
passes it through `jvalue_copy` (a reference-count bump, identity in the
model); the other modes insert the slot's reference itself
(`SPLICE_TRANSFER` additionally vacates the source slot, which is never
read again because the source cursor only advances; source mutation is
not tracked by the model). -/
def spliceSlot (ow : JSpliceOwnership) (s : Option JValue) : Option JValue :=
  match ow with
  | .copy => s.map jvalue_copy
  | _ => s

/-- The first loop of `jarray_splice`: while elements remain both to
remove and to copy in, overwrite `dst[i]` with the source slot via
`jarray_put_unsafe` (whose return value the C code discards). -/
def splice_overwrite (dst : JValue) (ss : List (Option JValue)) (ow : JSpliceOwnership)
    (i j removable e : Nat) : JValue × Nat × Nat × Nat :=
  if removable = 0 || e ≤ j then (dst, i, j, removable)
  else
    let valueToInsert := spliceSlot ow (ss.getD j none)
    let r := jarray_put_unsafe dst i valueToInsert
    splice_overwrite r.2 ss ow (i + 1) (j + 1) (removable - 1) e
termination_by removable
decreasing_by simp_all <;> omega

/-- The removal loop of `jarray_splice`: remove `removable` further
elements at position `i`. -/
def splice_remove : JValue → Nat → Nat → JValue
  | dst, _, 0 => dst
  | dst, i, r + 1 => splice_remove ( jarray_remove_unsafe dst i) i r

/-- The trailing insertion loop of `jarray_splice`: insert the remaining
source slots before position `i` via `jarray_insert`; a failing insert
aborts with `false`. -/
def splice_insert (dst : JValue) (ss : List (Option JValue)) (ow : JSpliceOwnership)
    (i j e : Nat) : Bool × JValue :=
  if e ≤ j then (true, dst)
  else
    let valueToInsert := spliceSlot ow (ss.getD j none)
    let r := jarray_insert dst (i : Int) valueToInsert
    if r.ok then splice_insert r.arr ss ow (i + 1) (j + 1) e else (false, r.arr)
termination_by e - j

/-- The checks and phases of `jarray_splice` shared by both branches of
the initial `LIKELY(removable)` test (the C code executes them in this
order after that test). -/
def jarray_splice_core (dst : JValue) (index toRemove : Int) (src : JValue) (b e : Int)
    (ow : JSpliceOwnership) : Bool × JValue :=
  if b ≥ e then (false, dst)
  else if !valid_index_bounded src b then (false, dst)
  else if !valid_index_bounded src (e - 1) then (false, dst)
  else if toRemove < 0 then (false, dst)
  else if !jarray_splice_check_insert_sanity dst src then (false, dst)
  else
    let ss := match src with | .jarr _ s2 => s2 | _ => []
    let st := splice_overwrite dst ss ow index.toNat b.toNat toRemove.toNat e.toNat
    let dst1 := st.1
    let i := st.2.1
    let j := st.2.2.1
    let removable := st.2.2.2
    if removable ≠ 0 then (true, splice_remove dst1 i removable)
    else if j < e.toNat then splice_insert dst1 ss ow i j e.toNat
    else (true, dst1)

/-- `jarray_splice` (jobject.c lines 1295-1381).  `removable` is the
`size_t` cast of `toRemove`, so the `LIKELY(removable)` test is
`toRemove != 0`; in the `toRemove == 0` branch a negative `index` is
clamped to 0 and the destination bounds are not checked. -/
def jarray_splice (dst : JValue) (index toRemove : Int) (src : JValue) (b e : Int)
    (ow : JSpliceOwnership) : Bool × JValue :=
  if toRemove ≠ 0 then
    if !valid_index_bounded dst index then (false, dst)
    else if !valid_index_bounded dst (index + toRemove - 1) then (false, dst)
    else jarray_splice_core dst index toRemove src b e ow
  else
    if !jis_array dst then (false, dst)
    else jarray_splice_core dst (max index 0) toRemove src b e ow

/-! ### Traversal (jtraverse.c) -/

/-- The visitor callbacks of `TraverseCallbacks`.  Each callback takes
the mutable context and the visited value (the key callback takes the
key) and returns its continue/abort decision plus the updated context. -/
structure TraverseCallbacks (γ : Type) where
  on_null : γ → JValue → Bool × γ
  on_bool : γ → JValue → Bool × γ
  on_number_int : γ → JValue → Bool × γ
  on_number_double : γ → JValue → Bool × γ
  on_number_raw : γ → JValue → Bool × γ
  on_string : γ → JValue → Bool × γ
  obj_start : γ → JValue → Bool × γ
  obj_key : γ → Bytes → Bool × γ
  obj_end : γ → JValue → Bool × γ
  arr_start : γ → JValue → Bool × γ
  arr_end : γ → JValue → Bool × γ

/- `jvalue_traverse` (jtraverse.c lines 23-90).  Both `JNULL` and
`JINVALID` have `m_type == JV_NULL` and are delivered to the null
callback.  `jobject_traverse_entries` is the key/value loop of
`jobject_traverse` together with its closing `jobj_end` call, and
`jarray_traverse_slots` the element loop of `jarray_traverse` with its
closing `jarr_end` call (array elements are read via `jarray_get`). -/
mutual

def jvalue_traverse {γ : Type} (tc : TraverseCallbacks γ) (c : γ) (v : JValue) : Bool × γ :=
  match v with
  | .jnull => tc.on_null c v
  | .jinvalid => tc.on_null c v
  | .jbool _ => tc.on_bool c v
  | .jstr _ _ => tc.on_string c v
  | .jnum n =>
      match n with
      | .raw _ => tc.on_number_raw c v
      | .float _ => tc.on_number_double c v
      | .int _ => tc.on_number_int c v
  | .jobj _ es =>
      match tc.obj_start c v with
      | (false, c1) => (false, c1)
      | (true, c1) => jobject_traverse_entries tc c1 v es
  | .jarr _ slots =>
      match tc.arr_start c v with
      | (false, c1) => (false, c1)
      | (true, c1) => jarray_traverse_slots tc c1 v slots
termination_by (jsize v, 0)
decreasing_by
  all_goals exact Prod.Lex.left _ _ (by simp [jsize] <;> omega)

def jobject_traverse_entries {γ : Type} (tc : TraverseCallbacks γ) (c : γ) (v : JValue) :
    List (Bytes × JValue) → Bool × γ
  | [] => tc.obj_end c v
  | (k, x) :: rest =>
      match tc.obj_key c k with
      | (false, c1) => (false, c1)
      | (true, c1) =>
          match jvalue_traverse tc c1 x with
          | (false, c2) => (false, c2)
          | (true, c2) => jobject_traverse_entries tc c2 v rest
termination_by es => (jsizeEntries es, 1)
decreasing_by
  · exact Prod.Lex.left _ _ (jsize_entry_lt _ _ _)
  · exact Prod.Lex.left _ _ (jsizeEntries_tail_lt _ _)

def jarray_traverse_slots {γ : Type} (tc : TraverseCallbacks γ) (c : γ) (v : JValue) :
    List (Option JValue) → Bool × γ
  | [] => tc.arr_end c v
  | s :: rest =>
      match jvalue_traverse tc c (slotValue s) with
      | (false, c1) => (false, c1)
      | (true, c1) => jarray_traverse_slots tc c1 v rest
termination_by slots => (jsizeSlots slots, 1)
decreasing_by
  · exact Prod.Lex.left _ _ (jsize_slotValue_lt_cons _ _)
  · exact Prod.Lex.left _ _ (jsizeSlots_tail_lt _ _)

end

/-- A single callback invocation, abstracted as an event. -/
inductive TEvent where
  | eNull (v : JValue)
  | eBool (v : JValue)
  | eNumInt (v : JValue)
  | eNumDouble (v : JValue)
  | eNumRaw (v : JValue)
  | eStr (v : JValue)
  | eObjStart (v : JValue)
  | eKey (k : Bytes)
  | eObjEnd (v : JValue)
  | eArrStart (v : JValue)
  | eArrEnd (v : JValue)

/-- Deliver one event to the matching callback. -/
def dispatchEvent {γ : Type} (tc : TraverseCallbacks γ) (c : γ) : TEvent → Bool × γ
  | .eNull v => tc.on_null c v
  | .eBool v => tc.on_bool c v
  | .eNumInt v => tc.on_number_int c v
  | .eNumDouble v => tc.on_number_double c v
  | .eNumRaw v => tc.on_number_raw c v
  | .eStr v => tc.on_string c v
  | .eObjStart v => tc.obj_start c v
  | .eKey k => tc.obj_key c k
  | .eObjEnd v => tc.obj_end c v
  | .eArrStart v => tc.arr_start c v
  | .eArrEnd v => tc.arr_end c v

/-- Run the callbacks over an event list, stopping at the first `false`:
nothing after the first refused event is delivered. -/
def cutRun {γ : Type} (tc : TraverseCallbacks γ) (c : γ) : List TEvent → Bool × γ
  | [] => (true, c)
  | ev :: rest =>
      match dispatchEvent tc c ev with
      | (false, c1) => (false, c1)
      | (true, c1) => cutRun tc c1 rest

/- The complete event sequence of a traversal (the traversal order). -/
mutual

def traverseEvents (v : JValue) : List TEvent :=
  match v with
  | .jnull => [.eNull v]
  | .jinvalid => [.eNull v]
  | .jbool _ => [.eBool v]
  | .jstr _ _ => [.eStr v]
  | .jnum n =>
      match n with
      | .raw _ => [.eNumRaw v]
      | .float _ => [.eNumDouble v]
      | .int _ => [.eNumInt v]
  | .jobj _ es => .eObjStart v :: entriesEvents es ++ [.eObjEnd v]
  | .jarr _ slots => .eArrStart v :: slotsEvents slots ++ [.eArrEnd v]
termination_by (jsize v, 0)
decreasing_by
  all_goals exact Prod.Lex.left _ _ (by simp [jsize] <;> omega)

def entriesEvents : List (Bytes × JValue) → List TEvent
  | [] => []
  | (k, x) :: rest => .eKey k :: traverseEvents x ++ entriesEvents rest
termination_by es => (jsizeEntries es, 1)
decreasing_by
  · exact Prod.Lex.left _ _ (jsize_entry_lt _ _ _)
  · exact Prod.Lex.left _ _ (jsizeEntries_tail_lt _ _)

def slotsEvents : List (Option JValue) → List TEvent
  | [] => []
  | s :: rest => traverseEvents (slotValue s) ++ slotsEvents rest
termination_by slots => (jsizeSlots slots, 1)
decreasing_by
  · exact Prod.Lex.left _ _ (jsize_slotValue_lt_cons _ _)
  · exact Prod.Lex.left _ _ (jsizeSlots_tail_lt _ _)

end

theorem cutRun_append {γ : Type} (tc : TraverseCallbacks γ) (c : γ) (l1 l2 : List TEvent) :
    cutRun tc c (l1 ++ l2) =
      match cutRun tc c l1 with
      | (false, c1) => (false, c1)
      | (true, c1) => cutRun tc c1 l2 := by
  induction l1 generalizing c with
  | nil => simp [cutRun]
  | cons ev rest ih =>
      simp only [List.cons_append, cutRun]
      cases hd : dispatchEvent tc c ev with
      | mk ok c1 => cases ok <;> simp [ih]

theorem cutRun_single {γ : Type} (tc : TraverseCallbacks γ) (c : γ) (ev : TEvent) :
    cutRun tc c [ev] = dispatchEvent tc c ev := by
  rw [cutRun]
  cases h : dispatchEvent tc c ev with
  | mk ok c1 => cases ok <;> simp [cutRun]

theorem jarray_traverse_slots_eq_cutRun {γ : Type} (tc : TraverseCallbacks γ) (v : JValue)
    (n : Nat)
    (ih : ∀ x : JValue, jsize x ≤ n → ∀ c : γ,
      jvalue_traverse tc c x = cutRun tc c (traverseEvents x)) :
    ∀ slots : List (Option JValue), jsizeSlots slots ≤ n → ∀ c : γ,
      jarray_traverse_slots tc c v slots =
        (match cutRun tc c (slotsEvents slots) with
         | (false, c1) => (false, c1)
         | (true, c1) => tc.arr_end c1 v) := by
  intro slots
  induction slots with
  | nil => intro _ c; simp [jarray_traverse_slots, slotsEvents, cutRun]
  | cons s rest ihs =>
      intro h c
      have h1 : jsize (slotValue s) ≤ n :=
        le_trans (Nat.le_of_lt (jsize_slotValue_lt_cons s rest)) h
      have h2 : jsizeSlots rest ≤ n :=
        le_trans (Nat.le_of_lt (jsizeSlots_tail_lt s rest)) h
      rw [jarray_traverse_slots, slotsEvents, cutRun_append, ih (slotValue s) h1 c]
      cases hr : cutRun tc c (traverseEvents (slotValue s)) with
      | mk ok c1 => cases ok <;> simp [ihs h2 c1]

theorem jobject_traverse_entries_eq_cutRun {γ : Type} (tc : TraverseCallbacks γ) (v : JValue)
    (n : Nat)
    (ih : ∀ x : JValue, jsize x ≤ n → ∀ c : γ,
      jvalue_traverse tc c x = cutRun tc c (traverseEvents x)) :
    ∀ es : List (Bytes × JValue), jsizeEntries es ≤ n → ∀ c : γ,
      jobject_traverse_entries tc c v es =
        (match cutRun tc c (entriesEvents es) with
         | (false, c1) => (false, c1)
         | (true, c1) => tc.obj_end c1 v) := by
  intro es
  induction es with
  | nil => intro _ c; simp [jobject_traverse_entries, entriesEvents, cutRun]
  | cons p rest ihs =>
      obtain ⟨k, x⟩ := p
      intro h c
      have h1 : jsize x ≤ n := le_trans (Nat.le_of_lt (jsize_entry_lt k x rest)) h
      have h2 : jsizeEntries rest ≤ n :=
        le_trans (Nat.le_of_lt (jsizeEntries_tail_lt (k, x) rest)) h
      rw [jobject_traverse_entries, entriesEvents]
      simp only [cutRun, List.cons_append]
      cases hk : dispatchEvent tc c (.eKey k) with
      | mk okk c1 =>
          have hk' : tc.obj_key c k = (okk, c1) := hk
          cases okk with
          | false => simp [hk']
          | true =>
              simp only [hk', List.append_eq]
              rw [cutRun_append, ih x h1 c1]
              cases hr : cutRun tc c1 (traverseEvents x) with
              | mk ok c2 => cases ok <;> simp [ihs h2 c2]

/-- The traversal delivers callbacks in traversal order and stops at the
first callback returning false: it equals a short-circuiting run over
the full event sequence. -/
theorem jvalue_traverse_eq_cutRun {γ : Type} (tc : TraverseCallbacks γ) (c : γ) (v : JValue) :
    jvalue_traverse tc c v = cutRun tc c (traverseEvents v) := by
  have H : ∀ n, ∀ x : JValue, jsize x ≤ n → ∀ c : γ,
      jvalue_traverse tc c x = cutRun tc c (traverseEvents x) := by
    intro n
    induction n with
    | zero => intro x h; have := jsize_pos x; omega
    | succ n ih =>
        intro x hx c
        cases x with
        | jnull => simp [jvalue_traverse, traverseEvents, cutRun_single, dispatchEvent]
        | jinvalid => simp [jvalue_traverse, traverseEvents, cutRun_single, dispatchEvent]
        | jbool b => simp [jvalue_traverse, traverseEvents, cutRun_single, dispatchEvent]
        | jstr a s => simp [jvalue_traverse, traverseEvents, cutRun_single, dispatchEvent]
        | jnum m =>
            cases m <;> simp [jvalue_traverse, traverseEvents, cutRun_single, dispatchEvent]
        | jarr id slots =>
            have hs : jsizeSlots slots ≤ n := by
              have he : jsize (JValue.jarr id slots) = 1 + jsizeSlots slots := rfl
              omega
            rw [jvalue_traverse, traverseEvents]
            simp only [cutRun]
            cases hstart : dispatchEvent tc c (.eArrStart (JValue.jarr id slots)) with
            | mk ok c1 =>
                have hstart' : tc.arr_start c (JValue.jarr id slots) = (ok, c1) := hstart
                cases ok with
                | false => simp [hstart']
                | true =>
                    simp only [hstart', List.append_eq]
                    rw [jarray_traverse_slots_eq_cutRun tc _ n ih slots hs c1, cutRun_append]
                    cases hr : cutRun tc c1 (slotsEvents slots) with
                    | mk ok2 c2 =>
                        cases ok2 with
                        | false => simp [cutRun, dispatchEvent]
                        | true => simp [cutRun_single, dispatchEvent]
        | jobj id es =>
            have hs : jsizeEntries es ≤ n := by
              have he : jsize (JValue.jobj id es) = 1 + jsizeEntries es := rfl
              omega
            rw [jvalue_traverse, traverseEvents]
            simp only [cutRun]
            cases hstart : dispatchEvent tc c (.eObjStart (JValue.jobj id es)) with
            | mk ok c1 =>
                have hstart' : tc.obj_start c (JValue.jobj id es) = (ok, c1) := hstart
                cases ok with
                | false => simp [hstart']
                | true =>
                    simp only [hstart', List.append_eq]
                    rw [jobject_traverse_entries_eq_cutRun tc _ n ih es hs c1, cutRun_append]
                    cases hr : cutRun tc c1 (entriesEvents es) with
                    | mk ok2 c2 =>
                        cases ok2 with
                        | false => simp [cutRun, dispatchEvent]
                        | true => simp [cutRun_single, dispatchEvent]
  exact H (jsize v) v le_rfl c

/-! ### Claim C6 -/

/-- C6: for every value reference `v` that refers to an actual value,
`jis_null v` returns true exactly when `v` is the `JNULL` singleton or
the `JINVALID` sentinel, and `jis_valid v` returns false only when `v`
is the `JINVALID` sentinel (true for every other value, `JNULL`
included). -/
theorem claim_C6_is_null_is_valid (v : JValue) :
    (jis_null (some v) = true ↔ (v = .jnull ∨ v = .jinvalid)) ∧
    (jis_valid (some v) = false ↔ v = .jinvalid) := by
  cases v <;> simp [jis_null, jis_valid, jis_valid_unsafe]

/-! ### Claim C5 -/

/-- C5: `jnumber_create_f64 d` returns the invalid sentinel when `d` is
NaN or an infinity, and otherwise returns a number of kind `NUM_FLOAT`
holding `d`; consequently every constructed `NUM_FLOAT` holds a finite
value. -/
theorem claim_C5_create_f64 (d : FloatV) :
    ((isnanF d = true ∨ isinfF d = true) → jnumber_create_f64 d = .jinvalid) ∧
    (jnumber_create_f64 d ≠ .jinvalid →
      ∃ q : ℚ, d = .fin q ∧ jnumber_create_f64 d = .jnum (.float q)) := by
  cases d <;> simp [jnumber_create_f64, isnanF, isinfF]

/-- Witness for C5 at the concrete inputs NaN and the finite double 1. -/
theorem claim_C5_create_f64_witness :
    jnumber_create_f64 .nan = .jinvalid ∧
    jnumber_create_f64 (.fin 1) = .jnum (.float 1) := by
  have h2 := (claim_C5_create_f64 (.fin 1)).2
    (by simp [jnumber_create_f64, isnanF, isinfF])
  obtain ⟨q, hq, hc⟩ := h2
  have hq1 : q = 1 := by cases hq; rfl
  subst hq1
  exact ⟨(claim_C5_create_f64 .nan).1 (Or.inl rfl), hc⟩

/-! ### Claim C7 -/

/-- C7 counterexample: `jstring_create_copy` on a zero-length input does
NOT return the shared empty-string singleton (jobject.c lines 1469-1481
allocate a fresh `jstring_inline` unconditionally), and the fresh value
is destroyed by release, unlike the singleton. -/
theorem claim_C7_counterexample :
    jstring_create_copy [] ≠ jstring_empty ∧
    j_release_frees (jstring_create_copy []) = true := by
  constructor
  · simp [jstring_create_copy, jstring_empty]
  · rfl

/-- C7 (amended): `jstring_create_nocopy_full` and `jstring_empty`
return the shared empty-string singleton for a zero-length input, and
release never destroys the singleton; `jstring_create_copy` however
always allocates a fresh string — never the singleton — and release does
destroy it. -/
theorem claim_C7_amended :
    jstring_create_nocopy_full (some []) = jstring_empty ∧
    j_release_frees jstring_empty = false ∧
    ∀ s : Bytes, jstring_create_copy s ≠ jstring_empty ∧
      j_release_frees (jstring_create_copy s) = true := by
  refine ⟨rfl, rfl, fun s => ⟨?_, rfl⟩⟩
  simp [jstring_create_copy, jstring_empty]

/-! ### Claim C8 -/

/-- C8: `jvalue_traverse` equals a short-circuiting run over the full
event sequence in traversal order — as soon as one callback returns
false the traversal returns false, and no callback is invoked on any
element that follows. -/
theorem claim_C8_traverse_short_circuit {γ : Type} (tc : TraverseCallbacks γ) (c : γ)
    (v : JValue) :
    jvalue_traverse tc c v = cutRun tc c (traverseEvents v) :=
  jvalue_traverse_eq_cutRun tc c v

/-! ### Claim C1 -/

/-- The child relation of the spec: `w` is a child of `v` when it sits
in one of `v`'s array slots (as read back by `jarray_get`) or object
entries. -/
def childOf (w v : JValue) : Prop :=
  match v with
  | .jarr _ slots => ∃ s ∈ slots, slotValue s = w
  | .jobj _ es => ∃ p ∈ es, p.2 = w
  | _ => False

/-- `Descendant w v`: `w` is reachable from `v` by one or more steps of
the child relation. -/
inductive Descendant : JValue → JValue → Prop where
  | child {w v : JValue} : childOf w v → Descendant w v
  | step {w u v : JValue} : childOf w u → Descendant u v → Descendant w v

theorem jis_valid_of_occurs (v d : JValue) (h : occursNode v d = true) :
    jis_valid (some d) = true := by
  cases d with
  | jinvalid => simp [occursNode, sameContainer] at h
  | jnull => rfl
  | jbool b => rfl
  | jnum n => rfl
  | jstr a s => rfl
  | jarr id slots => rfl
  | jobj id es => rfl

theorem jobject_put_fail_of_occurs (v d : JValue) (key : Option JValue)
    (h : occursNode v d = true) :
    (jobject_put v key (some d)).ok = false ∧ (jobject_put v key (some d)).obj = v := by
  have hcheck : check_insert_sanity v d = false := by
    rw [check_insert_sanity_eq_not_occurs, h]; rfl
  have hvalid := jis_valid_of_occurs v d h
  cases v with
  | jobj id es =>
      cases key with
      | none => exact ⟨rfl, rfl⟩
      | some k =>
          cases hs : jis_string k with
          | false => simp [jobject_put, hs]
          | true =>
              cases hsz : jstring_size k == 0 with
              | true => simp [jobject_put, hs, hsz]
              | false => simp [jobject_put, hs, hsz, hvalid, hcheck]
  | jnull => exact ⟨rfl, rfl⟩
  | jinvalid => exact ⟨rfl, rfl⟩
  | jbool b => exact ⟨rfl, rfl⟩
  | jnum n => exact ⟨rfl, rfl⟩
  | jstr a s => exact ⟨rfl, rfl⟩
  | jarr id slots => exact ⟨rfl, rfl⟩

theorem jarray_put_fail_of_occurs (v d : JValue) (index : Int)
    (h : occursNode v d = true) :
    (jarray_put v index (some d)).ok = false ∧ (jarray_put v index (some d)).arr = v := by
  have hcheck : check_insert_sanity v d = false := by
    rw [check_insert_sanity_eq_not_occurs, h]; rfl
  cases v with
  | jarr id slots =>
      by_cases hi : index < 0
      · simp [jarray_put, jis_array, hi]
      · simp [jarray_put, jis_array, hi, jarray_put_unsafe, slotValue, hcheck]
  | jnull => exact ⟨rfl, rfl⟩
  | jinvalid => exact ⟨rfl, rfl⟩
  | jbool b => exact ⟨rfl, rfl⟩
  | jnum n => exact ⟨rfl, rfl⟩
  | jstr a s => exact ⟨rfl, rfl⟩
  | jobj id es => exact ⟨rfl, rfl⟩

theorem jarray_append_fail_of_occurs (v d : JValue)
    (h : occursNode v d = true) :
    (jarray_append v (some d)).ok = false ∧ (jarray_append v (some d)).arr = v := by
  have hcheck : check_insert_sanity v d = false := by
    rw [check_insert_sanity_eq_not_occurs, h]; rfl
  cases v with
  | jarr id slots =>
      simp [jarray_append, jis_array, jarray_put_unsafe, slotValue, hcheck]
  | jnull => exact ⟨rfl, rfl⟩
  | jinvalid => exact ⟨rfl, rfl⟩
  | jbool b => exact ⟨rfl, rfl⟩
  | jnum n => exact ⟨rfl, rfl⟩
  | jstr a s => exact ⟨rfl, rfl⟩
  | jobj id es => exact ⟨rfl, rfl⟩

theorem jarray_insert_fail_of_occurs (v d : JValue) (index : Int)
    (h : occursNode v d = true) :
    (jarray_insert v index (some d)).ok = false ∧ (jarray_insert v index (some d)).arr = v := by
  have hcheck : check_insert_sanity v d = false := by
    rw [check_insert_sanity_eq_not_occurs, h]; rfl
  cases v with
  | jarr id slots =>
      by_cases hi : index < 0
      · simp [jarray_insert, jis_array, hi]
      · simp [jarray_insert, jis_array, hi, slotValue, hcheck]
  | jnull => exact ⟨rfl, rfl⟩
  | jinvalid => exact ⟨rfl, rfl⟩
  | jbool b => exact ⟨rfl, rfl⟩
  | jnum n => exact ⟨rfl, rfl⟩
  | jstr a s => exact ⟨rfl, rfl⟩
  | jobj id es => exact ⟨rfl, rfl⟩

/-- C1 counterexample: `d` is a direct child — hence a descendant via
the child relation — of the array `v`, yet `jarray_append v d` succeeds
and changes `v` (it merely creates sharing, not a cycle; the guard
`check_insert_sanity` looks for `v` inside `d`'s subtree, not for `d`
inside `v`'s). -/
theorem claim_C1_counterexample :
    Descendant (.jarr 1 []) (.jarr 0 [some (.jarr 1 [])]) ∧
    (jarray_append (.jarr 0 [some (.jarr 1 [])]) (some (.jarr 1 []))).ok = true ∧
    (jarray_append (.jarr 0 [some (.jarr 1 [])]) (some (.jarr 1 []))).arr ≠
      .jarr 0 [some (.jarr 1 [])] := by
  refine ⟨Descendant.child ⟨some (.jarr 1 []), by simp, rfl⟩, ?_, ?_⟩
  · simp [jarray_append, jis_array, jarray_put_unsafe, slotValue,
      check_insert_sanity, check_insert_slots, sameContainer]
  · simp [jarray_append, jis_array, jarray_put_unsafe, slotValue,
      check_insert_sanity, check_insert_slots, sameContainer,
      jarray_size, jarray_put_slots]

/-- C1 (amended): an insertion of `d` into a container `v` is rejected
exactly when it would make a value reachable from itself, i.e. when `v`
occurs (by node identity) in `d`'s subtree — including `d = v` itself;
in that case all four insertion operations fail before any mutation and
leave `v` unchanged.  Inserting a mere descendant of `v` that does not
itself reach `v` is accepted (it creates sharing, not a cycle). -/
theorem claim_C1_amended (v d : JValue) (h : occursNode v d = true)
    (key : Option JValue) (index : Int) :
    ((jobject_put v key (some d)).ok = false ∧ (jobject_put v key (some d)).obj = v) ∧
    ((jarray_put v index (some d)).ok = false ∧ (jarray_put v index (some d)).arr = v) ∧
    ((jarray_append v (some d)).ok = false ∧ (jarray_append v (some d)).arr = v) ∧
    ((jarray_insert v index (some d)).ok = false ∧ (jarray_insert v index (some d)).arr = v) :=
  ⟨jobject_put_fail_of_occurs v d key h, jarray_put_fail_of_occurs v d index h,
   jarray_append_fail_of_occurs v d h, jarray_insert_fail_of_occurs v d index h⟩

/-- Witness for the amended C1 at the self-insertion `a` into `a` (the
spec's own end-to-end scenario 5). -/
theorem claim_C1_amended_witness :
    occursNode (.jarr 0 []) (.jarr 0 []) = true ∧
    (jarray_append (.jarr 0 []) (some (.jarr 0 []))).ok = false ∧
    (jarray_append (.jarr 0 []) (some (.jarr 0 []))).arr = .jarr 0 [] := by
  have h : occursNode (.jarr 0 []) (.jarr 0 []) = true := by
    rw [occursNode]; simp [sameContainer]
  exact ⟨h, (claim_C1_amended (.jarr 0 []) (.jarr 0 []) h
    (some (.jstr .inlineCopy [97])) 0).2.2.1⟩

/-! ### Claim C10 -/

theorem check_insert_sanity_jnull (p : JValue) : check_insert_sanity p .jnull = true := by
  cases p <;> simp [check_insert_sanity, sameContainer]

theorem jobject_lookup_obj_replace (es : List (Bytes × JValue)) (k : Bytes) (v : JValue) :
    jobject_lookup (obj_replace es k v) k = some v := by
  induction es with
  | nil => simp [obj_replace, jobject_lookup]
  | cons p rest ih =>
      by_cases h : p.1 = k
      · simp [obj_replace, h, jobject_lookup]
      · have hb : (p.1 == k) = false := by simp [h]
        simp only [obj_replace, hb, Bool.false_eq_true, if_false]
        simp only [jobject_lookup, List.find?_cons, hb] at ih ⊢
        exact ih

theorem jarray_put_slots_getD (slots : List (Option JValue)) (i : Nat) (s : Option JValue) :
    (jarray_put_slots slots i s).getD i none = s := by
  unfold jarray_put_slots
  by_cases h : i < slots.length
  · simp [h, List.getD_eq_getElem?_getD, List.getElem?_set_eq_of_lt _ h]
  · rw [if_neg h]
    have hlen : (slots ++ List.replicate (i - slots.length) none).length = i := by
      simp; omega
    rw [List.getD_eq_getElem?_getD, List.getElem?_append_right (le_of_eq hlen)]
    simp [hlen]

/-- C10: with a valid object and a valid non-empty string key, passing a
C `NULL` or the `JINVALID` sentinel as the value of `jobject_put` does
not fail — the value is silently replaced by the `JNULL` singleton and
the object maps the key to Null afterwards; likewise a C `NULL` value
passed to `jarray_append`, `jarray_put` or `jarray_set` is replaced by
Null, which the array then holds at the written index. -/
theorem claim_C10_null_value_insertion (id : Nat) (es : List (Bytes × JValue))
    (a : StrAlloc) (k : Bytes) (hk : k ≠ []) (aid : Nat) (slots : List (Option JValue))
    (index : Int) (hi : 0 ≤ index) :
    ((jobject_put (.jobj id es) (some (.jstr a k)) none).ok = true ∧
      jobject_get (jobject_put (.jobj id es) (some (.jstr a k)) none).obj k = .jnull) ∧
    ((jobject_put (.jobj id es) (some (.jstr a k)) (some .jinvalid)).ok = true ∧
      jobject_get (jobject_put (.jobj id es) (some (.jstr a k)) (some .jinvalid)).obj k
        = .jnull) ∧
    ((jarray_append (.jarr aid slots) none).ok = true ∧
      jarray_get (jarray_append (.jarr aid slots) none).arr (slots.length : Int) = .jnull) ∧
    ((jarray_put (.jarr aid slots) index none).ok = true ∧
      jarray_get (jarray_put (.jarr aid slots) index none).arr index = .jnull) ∧
    ((jarray_set (.jarr aid slots) index none).1 = true ∧
      jarray_get (jarray_set (.jarr aid slots) index none).2 index = .jnull) := by
  have hsz : (jstring_size (JValue.jstr a k) == 0) = false := by
    simp [jstring_size, jstring_bytes]
    exact hk
  have hko : ∀ w, jobject_put (JValue.jobj id es) (some (.jstr a k)) w =
      (if !check_insert_sanity (JValue.jobj id es)
            (match w with
             | none => JValue.jnull
             | some x => if !jis_valid (some x) then JValue.jnull else x) then
        ⟨false, JValue.jobj id es, 1, 1⟩
      else
        ⟨true, JValue.jobj id
          (obj_replace es k
            (match w with
             | none => JValue.jnull
             | some x => if !jis_valid (some x) then JValue.jnull else x)), 0, 0⟩) := by
    intro w
    simp [jobject_put, jis_string, hsz, jstring_bytes]
  have hchk := check_insert_sanity_jnull (JValue.jobj id es)
  have hchk2 := check_insert_sanity_jnull (JValue.jarr aid slots)
  have hneg : ¬ (index < 0) := not_lt.mpr hi
  have hget : ∀ (i : Nat) (s : Option JValue),
      jarray_get (.jarr aid (jarray_put_slots slots i s)) (i : Int) = slotValue s := by
    intro i s
    simp only [jarray_get]
    rw [if_neg (by omega), Int.toNat_natCast, jarray_put_slots_getD]
  have hgetIdx : ∀ s : Option JValue,
      jarray_get (.jarr aid (jarray_put_slots slots index.toNat s)) index = slotValue s := by
    intro s
    have := hget index.toNat s
    rwa [Int.toNat_of_nonneg hi] at this
  refine ⟨?_, ?_, ?_, ?_, ?_⟩
  · rw [hko none]
    simp [hchk, jobject_get, jobject_lookup_obj_replace]
  · rw [hko (some .jinvalid)]
    simp [jis_valid, jis_valid_unsafe, hchk, jobject_get, jobject_lookup_obj_replace]
  · simp only [jarray_append, jis_array, Bool.not_true, Bool.false_eq_true, if_false,
      jarray_put_unsafe, slotValue, Option.getD_some, hchk2, jarray_size]
    exact ⟨trivial, hget slots.length (some .jnull)⟩
  · simp only [jarray_put, jis_array, Bool.not_true, Bool.false_eq_true, if_false,
      if_neg hneg, jarray_put_unsafe, slotValue, Option.getD_some, hchk2]
    exact ⟨trivial, hgetIdx (some .jnull)⟩
  · simp only [jarray_set, jis_array, Bool.not_true, Bool.false_eq_true, if_false,
      if_neg hneg, jvalue_copy, jarray_put_unsafe, slotValue, Option.getD_some, hchk2]
    exact ⟨trivial, hgetIdx (some .jnull)⟩

/-- Witness for C10 at a concrete object, array, key and index. -/
theorem claim_C10_null_value_insertion_witness :
    (jobject_put (.jobj 0 []) (some (.jstr .inlineCopy [97])) none).ok = true ∧
    (jarray_put (.jarr 1 []) 2 none).ok = true := by
  have h := claim_C10_null_value_insertion 0 [] .inlineCopy [97] (by decide) 1 [] 2
    (by decide)
  exact ⟨h.1.1, h.2.2.2.1.1⟩

/-! ### Claim C2 -/

theorem jobject_put_rel (obj : JValue) (key val : Option JValue) :
    (jobject_put obj key val).keyRel = (if (jobject_put obj key val).ok then 0 else 1) ∧
    (jobject_put obj key val).valRel = (if (jobject_put obj key val).ok then 0 else 1) := by
  cases obj with
  | jobj id es =>
      cases key with
      | none => exact ⟨rfl, rfl⟩
      | some k =>
          simp only [jobject_put]
          repeat' split
          all_goals simp_all
  | jnull => exact ⟨rfl, rfl⟩
  | jinvalid => exact ⟨rfl, rfl⟩
  | jbool b => exact ⟨rfl, rfl⟩
  | jnum n => exact ⟨rfl, rfl⟩
  | jstr a s => exact ⟨rfl, rfl⟩
  | jarr id slots => exact ⟨rfl, rfl⟩

theorem jobject_put_ok_key (obj : JValue) (key val : Option JValue)
    (hok : (jobject_put obj key val).ok = true) :
    ∃ k, key = some k ∧ jis_string k = true ∧ jstring_size k ≠ 0 := by
  cases obj with
  | jobj id es =>
      cases key with
      | none => simp [jobject_put] at hok
      | some k =>
          cases hs : jis_string k with
          | false => simp [jobject_put, hs] at hok
          | true =>
              cases hsz : jstring_size k == 0 with
              | true => simp [jobject_put, hs, hsz] at hok
              | false =>
                  exact ⟨k, rfl, hs, by simpa using hsz⟩
  | jnull => simp [jobject_put] at hok
  | jinvalid => simp [jobject_put] at hok
  | jbool b => simp [jobject_put] at hok
  | jnum n => simp [jobject_put] at hok
  | jstr a s => simp [jobject_put] at hok
  | jarr id slots => simp [jobject_put] at hok

theorem jarray_put_rel (arr : JValue) (index : Int) (val : Option JValue) :
    (jarray_put arr index val).valRel = (if (jarray_put arr index val).ok then 0 else 1) := by
  simp only [jarray_put]
  repeat' split
  all_goals simp_all

theorem jarray_append_rel (arr : JValue) (val : Option JValue) :
    (jarray_append arr val).valRel = 0 := by
  simp only [jarray_append]
  repeat' split
  all_goals simp_all

theorem jarray_insert_rel (arr : JValue) (index : Int) (val : Option JValue) :
    (jarray_insert arr index val).valRel = 0 := by
  simp only [jarray_insert]
  repeat' split
  all_goals simp_all

/-- C2 counterexample: `jarray_append` on a failure path — here the
target is not an array — returns false WITHOUT releasing its value
argument (jobject.c line 1222 is a `CHECK_CONDITION_RETURN_VALUE` that
returns before any `j_release`), contradicting the claim that the value
is released exactly once on failure. -/
theorem claim_C2_counterexample :
    (jarray_append (.jnum (.int 1)) (some (.jstr .inlineCopy [98]))).ok = false ∧
    (jarray_append (.jnum (.int 1)) (some (.jstr .inlineCopy [98]))).valRel = 0 :=
  ⟨rfl, rfl⟩

/-- C2 (amended): `jobject_put` requires a non-empty string key, and
releases both `key` and `value` exactly once on every failure path and
zero times on success (where both are stored); `jarray_put` likewise
releases its value exactly once on failure; but `jarray_append` and
`jarray_insert` never release their value argument — on their failure
paths ownership stays with the caller. -/
theorem claim_C2_amended (obj : JValue) (key val : Option JValue) (arr : JValue)
    (index : Int) (v2 : Option JValue) :
    ((jobject_put obj key val).ok = true →
      ∃ k, key = some k ∧ jis_string k = true ∧ jstring_size k ≠ 0) ∧
    (jobject_put obj key val).keyRel = (if (jobject_put obj key val).ok then 0 else 1) ∧
    (jobject_put obj key val).valRel = (if (jobject_put obj key val).ok then 0 else 1) ∧
    (jarray_put arr index v2).valRel = (if (jarray_put arr index v2).ok then 0 else 1) ∧
    (jarray_append arr v2).valRel = 0 ∧
    (jarray_insert arr index v2).valRel = 0 :=
  ⟨jobject_put_ok_key obj key val, (jobject_put_rel obj key val).1,
   (jobject_put_rel obj key val).2, jarray_put_rel arr index v2,
   jarray_append_rel arr v2, jarray_insert_rel arr index v2⟩

/-- Witness for the amended C2 at a concrete successful `jobject_put`. -/
theorem claim_C2_amended_witness :
    (∃ k, (some (JValue.jstr .inlineCopy [97]) : Option JValue) = some k ∧
      jis_string k = true ∧ jstring_size k ≠ 0) ∧
    (jarray_append (.jarr 0 []) (some .jnull)).valRel = 0 := by
  have hok : (jobject_put (.jobj 0 []) (some (.jstr .inlineCopy [97])) (some .jnull)).ok
      = true := by
    simp [jobject_put, jis_string, jstring_size, jstring_bytes, jis_valid, jis_valid_unsafe,
      check_insert_sanity_jnull]
  exact ⟨(claim_C2_amended (.jobj 0 []) (some (.jstr .inlineCopy [97])) (some .jnull)
    (.jarr 0 []) 0 (some .jnull)).1 hok,
    (claim_C2_amended (.jobj 0 []) (some (.jstr .inlineCopy [97])) (some .jnull)
    (.jarr 0 []) 0 (some .jnull)).2.2.2.2.1⟩

/-! ### Claim C4 -/

/-- The int64 reading of a comparison operand: the stored integer for
`NUM_INT`, the int64 conversion of the lexical form for `NUM_RAW`
("fits int64"), none for `NUM_FLOAT`. -/
def numAsI64 : JNum → Option Int
  | .int i => some i
  | .raw s => jstr_to_i64 s
  | .float _ => none

/-- The double reading of a comparison operand: the stored double, the
promoted integer, or — for raw — the int64 value when it converts, else
the double conversion. -/
def numAsDouble : JNum → Option ℚ
  | .float q => some q
  | .int i => some (i : ℚ)
  | .raw s =>
      match jstr_to_i64 s with
      | some n => some (n : ℚ)
      | none => jstr_to_double s

theorem icmp_eq_fcmp (a b : Int) : icmp a b = fcmp (.fin (a : ℚ)) (.fin (b : ℚ)) := by
  simp only [icmp, fcmp, fgt, decide_eq_true_eq, Int.cast_lt]

theorem fcmp_mem (x y : FloatV) : fcmp x y = 1 ∨ fcmp x y = 0 ∨ fcmp x y = -1 := by
  unfold fcmp
  split_ifs <;> simp

theorem icmp_mem (a b : Int) : icmp a b = 1 ∨ icmp a b = 0 ∨ icmp a b = -1 := by
  unfold icmp
  split_ifs <;> simp

theorem jnumber_compare_f64_mem (n : JNum) (t env : FloatV) :
    jnumber_compare_f64 n t env = 1 ∨ jnumber_compare_f64 n t env = 0 ∨
      jnumber_compare_f64 n t env = -1 := by
  cases n with
  | float q => exact fcmp_mem _ _
  | int i => exact fcmp_mem _ _
  | raw s =>
      cases h : jstr_to_i64 s with
      | some nn => simp only [jnumber_compare_f64, h]; exact fcmp_mem _ _
      | none => simp only [jnumber_compare_f64, h]; exact fcmp_mem _ _

theorem jnumber_compare_i64_mem (n : JNum) (t : Int) (env : FloatV) :
    jnumber_compare_i64 n t env = 1 ∨ jnumber_compare_i64 n t env = 0 ∨
      jnumber_compare_i64 n t env = -1 := by
  cases n with
  | float q => exact fcmp_mem _ _
  | int i => exact icmp_mem _ _
  | raw s =>
      cases h : jstr_to_i64 s with
      | some nn => simp only [jnumber_compare_i64, h]; exact icmp_mem _ _
      | none => simp only [jnumber_compare_i64, h]; exact fcmp_mem _ _

theorem jnumber_compare_mem (a b : JNum) (env : FloatV) :
    jnumber_compare a b env = 1 ∨ jnumber_compare a b env = 0 ∨
      jnumber_compare a b env = -1 := by
  cases b with
  | float q => exact jnumber_compare_f64_mem _ _ _
  | int i => exact jnumber_compare_i64_mem _ _ _
  | raw s =>
      cases h : jstr_to_i64 s with
      | some nn => simp only [jnumber_compare, h]; exact jnumber_compare_i64_mem _ _ _
      | none => simp only [jnumber_compare, h]; exact jnumber_compare_f64_mem _ _ _

theorem jnumber_compare_i64_double (a : JNum) (m : Int) (env : FloatV) (da : ℚ)
    (ha : numAsDouble a = some da) :
    jnumber_compare_i64 a m env = fcmp (.fin da) (.fin (m : ℚ)) := by
  cases a with
  | float q =>
      have : q = da := by simpa [numAsDouble] using ha
      subst this; rfl
  | int j =>
      have : (j : ℚ) = da := by simpa [numAsDouble] using ha
      subst this
      exact icmp_eq_fcmp j m
  | raw s =>
      cases h1 : jstr_to_i64 s with
      | some nn =>
          have : (nn : ℚ) = da := by simpa [numAsDouble, h1] using ha
          subst this
          simp only [jnumber_compare_i64, h1]
          exact icmp_eq_fcmp nn m
      | none =>
          have h2 : jstr_to_double s = some da := by simpa [numAsDouble, h1] using ha
          simp [jnumber_compare_i64, h1, h2]

theorem jnumber_compare_f64_double (a : JNum) (t : ℚ) (env : FloatV) (da : ℚ)
    (ha : numAsDouble a = some da) :
    jnumber_compare_f64 a (.fin t) env = fcmp (.fin da) (.fin t) := by
  cases a with
  | float q =>
      have : q = da := by simpa [numAsDouble] using ha
      subst this; rfl
  | int j =>
      have : (j : ℚ) = da := by simpa [numAsDouble] using ha
      subst this; rfl
  | raw s =>
      cases h1 : jstr_to_i64 s with
      | some nn =>
          have : (nn : ℚ) = da := by simpa [numAsDouble, h1] using ha
          subst this
          simp [jnumber_compare_f64, h1]
      | none =>
          have h2 : jstr_to_double s = some da := by simpa [numAsDouble, h1] using ha
          simp [jnumber_compare_f64, h1, h2]

theorem jnumber_compare_int_path (a b : JNum) (env : FloatV) (n m : Int)
    (ha : numAsI64 a = some n) (hb : numAsI64 b = some m) :
    jnumber_compare a b env = icmp n m := by
  have step : ∀ mm : Int, mm = m → jnumber_compare_i64 a mm env = icmp n m := by
    intro mm hmm
    subst hmm
    cases a with
    | float q => simp [numAsI64] at ha
    | int j =>
        have : j = n := by simpa [numAsI64] using ha
        subst this; rfl
    | raw s =>
        have hs : jstr_to_i64 s = some n := by simpa [numAsI64] using ha
        simp [jnumber_compare_i64, hs]
  cases b with
  | float q => simp [numAsI64] at hb
  | int i =>
      have : i = m := by simpa [numAsI64] using hb
      exact step i this
  | raw t =>
      have ht : jstr_to_i64 t = some m := by simpa [numAsI64] using hb
      simp only [jnumber_compare, ht]
      exact step m rfl

theorem jnumber_compare_double_path (a b : JNum) (env : FloatV) (da db : ℚ)
    (ha : numAsDouble a = some da) (hb : numAsDouble b = some db) :
    jnumber_compare a b env = fcmp (.fin da) (.fin db) := by
  cases b with
  | float q =>
      have hq : q = db := by simpa [numAsDouble] using hb
      subst hq
      exact jnumber_compare_f64_double a q env da ha
  | int i =>
      have : (i : ℚ) = db := by simpa [numAsDouble] using hb
      subst this
      exact jnumber_compare_i64_double a i env da ha
  | raw t =>
      cases h2 : jstr_to_i64 t with
      | some mm =>
          have : (mm : ℚ) = db := by simpa [numAsDouble, h2] using hb
          subst this
          simp only [jnumber_compare, h2]
          exact jnumber_compare_i64_double a mm env da ha
      | none =>
          have h3 : jstr_to_double t = some db := by simpa [numAsDouble, h2] using hb
          simp only [jnumber_compare, h2, h3, Option.map_some', Option.getD_some]
          exact jnumber_compare_f64_double a db env da ha

/-- C4 counterexample: the raw operand `"x"` converts to neither int64
nor double; the C code logs the failure but then proceeds to compare
against the uninitialised `asFloat` (modelled by the environment value),
returning an ordinary comparison result — NOT the designated error
sentinel `J_INVALID_VALUE` (-50), which is reserved for a corrupted
numeric kind tag. -/
theorem claim_C4_counterexample :
    jstr_to_i64 [120] = none ∧ jstr_to_double [120] = none ∧
    jnumber_compare (.int 0) (.raw [120]) (.fin 0) = 0 ∧
    jnumber_compare (.int 0) (.raw [120]) (.fin 0) ≠ J_INVALID_VALUE := by
  refine ⟨by decide, by decide, by decide, by decide⟩

/-- C4 (amended): when both operands have an int64 reading they are
compared as integers; otherwise, whenever both have a double reading
they are compared as (promoted) doubles; and the comparison ALWAYS
returns -1, 0 or 1 — in particular, when a raw operand converts to
neither int64 nor double the failure is logged but the comparison
proceeds with an indeterminate double value (the `env` parameter) and
still returns an ordinary result, never the designated sentinel
`J_INVALID_VALUE`, which is reserved for a corrupted kind tag. -/
theorem claim_C4_amended (a b : JNum) (env : FloatV) :
    (∀ n m : Int, numAsI64 a = some n → numAsI64 b = some m →
      jnumber_compare a b env = icmp n m) ∧
    (∀ da db : ℚ, numAsDouble a = some da → numAsDouble b = some db →
      jnumber_compare a b env = fcmp (.fin da) (.fin db)) ∧
    (jnumber_compare a b env = 1 ∨ jnumber_compare a b env = 0 ∨
      jnumber_compare a b env = -1) ∧
    jnumber_compare a b env ≠ J_INVALID_VALUE := by
  refine ⟨fun n m ha hb => jnumber_compare_int_path a b env n m ha hb,
    fun da db ha hb => jnumber_compare_double_path a b env da db ha hb,
    jnumber_compare_mem a b env, ?_⟩
  rcases jnumber_compare_mem a b env with h | h | h <;> rw [h] <;> decide

/-- Witness for the amended C4: the int64 path at `2` versus raw `"3"`,
and the double path at the double `1` versus the integer `2`. -/
theorem claim_C4_amended_witness :
    jnumber_compare (.int 2) (.raw [51]) (.fin 0) = icmp 2 3 ∧
    jnumber_compare (.float 1) (.int 2) (.fin 0) = fcmp (.fin 1) (.fin 2) := by
  constructor
  · exact (claim_C4_amended (.int 2) (.raw [51]) (.fin 0)).1 2 3 (by decide) (by decide)
  · exact (claim_C4_amended (.float 1) (.int 2) (.fin 0)).2.1 1 2 (by decide) (by decide)

/-! ### Claim C9 -/

theorem spliceSlot_eq (ow : JSpliceOwnership) (s : Option JValue) : spliceSlot ow s = s := by
  cases ow <;> cases s <;> rfl

theorem sameContainer_arr_right (aid : Nat) (xs ys : List (Option JValue)) (c : JValue) :
    sameContainer c (.jarr aid xs) = sameContainer c (.jarr aid ys) := by
  cases c <;> rfl

theorem occursSlots_congr (t1 t2 : JValue) (n : Nat)
    (ih : ∀ c : JValue, jsize c ≤ n → occursNode t1 c = occursNode t2 c) :
    ∀ slots : List (Option JValue), jsizeSlots slots ≤ n →
      occursSlots t1 slots = occursSlots t2 slots := by
  intro slots
  induction slots with
  | nil => intro _; simp [occursSlots]
  | cons s rest ihs =>
      intro h
      have h1 : jsize (slotValue s) ≤ n :=
        le_trans (Nat.le_of_lt (jsize_slotValue_lt_cons s rest)) h
      have h2 : jsizeSlots rest ≤ n :=
        le_trans (Nat.le_of_lt (jsizeSlots_tail_lt s rest)) h
      simp only [occursSlots, ih (slotValue s) h1, ihs h2]

theorem occursEntries_congr (t1 t2 : JValue) (n : Nat)
    (ih : ∀ c : JValue, jsize c ≤ n → occursNode t1 c = occursNode t2 c) :
    ∀ es : List (Bytes × JValue), jsizeEntries es ≤ n →
      occursEntries t1 es = occursEntries t2 es := by
  intro es
  induction es with
  | nil => intro _; simp [occursEntries]
  | cons p rest ihs =>
      obtain ⟨k, v⟩ := p
      intro h
      have h1 : jsize v ≤ n := le_trans (Nat.le_of_lt (jsize_entry_lt k v rest)) h
      have h2 : jsizeEntries rest ≤ n :=
        le_trans (Nat.le_of_lt (jsizeEntries_tail_lt (k, v) rest)) h
      simp only [occursEntries, ih v h1, ihs h2]

/-- `occursNode` against an array target only looks at the target's
identity, never at its (possibly mutated) slots. -/
theorem occursNode_arr_congr (aid : Nat) (xs ys : List (Option JValue)) (c : JValue) :
    occursNode (.jarr aid xs) c = occursNode (.jarr aid ys) c := by
  have H : ∀ n, ∀ c : JValue, jsize c ≤ n →
      occursNode (.jarr aid xs) c = occursNode (.jarr aid ys) c := by
    intro n
    induction n with
    | zero => intro c h; have := jsize_pos c; omega
    | succ n ih =>
        intro c hch
        have ih' : ∀ c : JValue, jsize c ≤ n →
            occursNode (.jarr aid xs) c = occursNode (.jarr aid ys) c := ih
        cases c with
        | jarr id slots =>
            have hs : jsizeSlots slots ≤ n := by
              have he : jsize (JValue.jarr id slots) = 1 + jsizeSlots slots := rfl
              omega
            simp only [occursNode, sameContainer,
              occursSlots_congr _ _ n ih' slots hs]
        | jobj id es =>
            have hs : jsizeEntries es ≤ n := by
              have he : jsize (JValue.jobj id es) = 1 + jsizeEntries es := rfl
              omega
            simp only [occursNode, sameContainer,
              occursEntries_congr _ _ n ih' es hs]
        | jnull => simp [occursNode, sameContainer]
        | jinvalid => simp [occursNode, sameContainer]
        | jbool b => simp [occursNode, sameContainer]
        | jnum m => simp [occursNode, sameContainer]
        | jstr a s => simp [occursNode, sameContainer]
  exact H (jsize c) c le_rfl

/-- `check_insert_sanity` against an array parent only looks at the
parent's identity. -/
theorem check_insert_sanity_arr_congr (aid : Nat) (xs ys : List (Option JValue))
    (c : JValue) :
    check_insert_sanity (.jarr aid xs) c = check_insert_sanity (.jarr aid ys) c := by
  rw [check_insert_sanity_eq_not_occurs, check_insert_sanity_eq_not_occurs,
    occursNode_arr_congr aid xs ys c]

theorem jarray_insert_slots_le (slots : List (Option JValue)) (i : Nat) (s : Option JValue)
    (h : i ≤ slots.length) :
    jarray_insert_slots slots i s = slots.take i ++ s :: slots.drop i := by
  unfold jarray_insert_slots
  by_cases hlt : i < slots.length
  · rw [if_pos hlt]
  · rw [if_neg hlt]
    have : i = slots.length := by omega
    subst this
    simp

theorem splice_overwrite_spec (id : Nat) (ss : List (Option JValue)) (ow : JSpliceOwnership)
    (hsan : ∀ s ∈ ss, check_insert_sanity (.jarr id []) (slotValue s) = true) :
    ∀ (r : Nat) (slots : List (Option JValue)) (i j e : Nat),
      j ≤ e → e ≤ ss.length → i + min r (e - j) ≤ slots.length →
      splice_overwrite (.jarr id slots) ss ow i j r e =
        (.jarr id (slots.take i ++ (ss.drop j).take (min r (e - j)) ++
          slots.drop (i + min r (e - j))),
         i + min r (e - j), j + min r (e - j), r - min r (e - j)) := by
  intro r
  induction r with
  | zero =>
      intro slots i j e hje hess hlen
      rw [splice_overwrite]
      simp
  | succ r ih =>
      intro slots i j e hje hess hlen
      by_cases hej : e ≤ j
      · rw [splice_overwrite]
        have hmin : min (r + 1) (e - j) = 0 := by omega
        simp [hej, hmin]
      · have hjlt : j < e := by omega
        have hjss : j < ss.length := by omega
        have hmin1 : min (r + 1) (e - j) = min r (e - (j + 1)) + 1 := by omega
        have hilt : i < slots.length := by omega
        rw [splice_overwrite, if_neg (by simp [hej])]
        dsimp only
        rw [spliceSlot_eq, Nat.add_sub_cancel]
        -- the slot read from the source is in bounds, hence in `ss`
        have hslot : ss.getD j none = ss[j] := List.getD_eq_getElem ss none hjss
        have hchk : check_insert_sanity (.jarr id slots) (slotValue (ss.getD j none))
            = true := by
          rw [check_insert_sanity_arr_congr id slots []]
          exact hsan _ (hslot ▸ List.getElem_mem hjss)
        have hput : jarray_put_unsafe (.jarr id slots) i (ss.getD j none) =
            (true, .jarr id (slots.set i (ss.getD j none))) := by
          simp only [ jarray_put_unsafe, hchk, Bool.not_true, Bool.false_eq_true, if_false,
            jarray_put_slots, if_pos hilt]
        rw [hput]
        have hlen2 : (i + 1) + min r (e - (j + 1)) ≤ (slots.set i (ss.getD j none)).length := by
          rw [List.length_set]; omega
        rw [ih (slots.set i (ss.getD j none)) (i + 1) (j + 1) e (by omega) hess hlen2]
        have hset : slots.set i (ss.getD j none) =
            slots.take i ++ ss.getD j none :: slots.drop (i + 1) := by
          rw [List.set_eq_take_append_cons_drop, if_pos hilt]
        have hlt : (slots.take i).length = i := by
          rw [List.length_take]; omega
        rw [hmin1]
        simp only [Prod.mk.injEq]
        refine ⟨?_, by omega, by omega, by omega⟩
        congr 1
        rw [hset, hslot, List.drop_eq_getElem_cons hjss]
        have h1 : (slots.take i ++ ss[j] :: slots.drop (i + 1)).take (i + 1) =
            slots.take i ++ [ss[j]] := by
          have hx : i + 1 = (slots.take i).length + 1 := by rw [hlt]
          rw [hx, List.take_append]
          rfl
        have h2 : (slots.take i ++ ss[j] :: slots.drop (i + 1)).drop
              (i + 1 + min r (e - (j + 1))) =
            slots.drop (i + 1 + min r (e - (j + 1))) := by
          have hx : i + 1 + min r (e - (j + 1)) =
              (slots.take i).length + (1 + min r (e - (j + 1))) := by rw [hlt]; omega
          rw [hx, List.drop_append,
            show 1 + min r (e - (j + 1)) = min r (e - (j + 1)) + 1 from by omega,
            List.drop_succ_cons, List.drop_drop]
          congr 1
          omega
        rw [h1, h2, List.take_succ_cons]
        have hoff : i + (min r (e - (j + 1)) + 1) = i + 1 + min r (e - (j + 1)) := by omega
        rw [hoff]
        simp [List.append_assoc]

theorem splice_remove_spec (id : Nat) :
    ∀ (r : Nat) (slots : List (Option JValue)) (i : Nat), i + r ≤ slots.length →
      splice_remove (.jarr id slots) i r = .jarr id (slots.take i ++ slots.drop (i + r)) := by
  intro r
  induction r with
  | zero =>
      intro slots i hlen
      rw [splice_remove]
      simp
  | succ r ih =>
      intro slots i hlen
      have hilt : i < slots.length := by omega
      rw [splice_remove]
      have herase : jarray_remove_unsafe (.jarr id slots) i =
          .jarr id (slots.take i ++ slots.drop (i + 1)) := by
        simp [ jarray_remove_unsafe, List.eraseIdx_eq_take_drop_succ]
      rw [herase]
      have hlt : (slots.take i).length = i := by rw [List.length_take]; omega
      have hlen2 : i + r ≤ (slots.take i ++ slots.drop (i + 1)).length := by
        rw [List.length_append, hlt, List.length_drop]; omega
      rw [ih _ i hlen2]
      congr 1
      have h1 : (slots.take i ++ slots.drop (i + 1)).take i = slots.take i := by
        have hx : i = (slots.take i).length := hlt.symm
        calc (slots.take i ++ slots.drop (i + 1)).take i
            = (slots.take i ++ slots.drop (i + 1)).take (slots.take i).length := by rw [← hx]
          _ = slots.take i := List.take_left _ _
      have h2 : (slots.take i ++ slots.drop (i + 1)).drop (i + r) =
          slots.drop (i + (r + 1)) := by
        have hx : i + r = (slots.take i).length + r := by rw [hlt]
        rw [hx, List.drop_append, List.drop_drop]
        congr 1
        omega
      rw [h1, h2]

theorem splice_insert_spec (id : Nat) (ss : List (Option JValue)) (ow : JSpliceOwnership)
    (hsan : ∀ s ∈ ss, check_insert_sanity (.jarr id []) (slotValue s) = true) :
    ∀ (n : Nat) (slots : List (Option JValue)) (i j e : Nat),
      e - j = n → j ≤ e → e ≤ ss.length → i ≤ slots.length →
      splice_insert (.jarr id slots) ss ow i j e =
        (true, .jarr id (slots.take i ++ (ss.drop j).take (e - j) ++ slots.drop i)) := by
  intro n
  induction n with
  | zero =>
      intro slots i j e hn hje hess hlen
      rw [splice_insert, if_pos (by omega)]
      rw [hn]
      simp
  | succ n ih =>
      intro slots i j e hn hje hess hlen
      have hjlt : j < e := by omega
      have hjss : j < ss.length := by omega
      rw [splice_insert, if_neg (by omega)]
      dsimp only
      rw [spliceSlot_eq]
      have hslot : ss.getD j none = ss[j] := List.getD_eq_getElem ss none hjss
      have hchk : check_insert_sanity (.jarr id slots)
          (slotValue (ss.getD j none)) = true := by
        rw [check_insert_sanity_arr_congr id slots []]
        exact hsan _ (hslot ▸ List.getElem_mem hjss)
      have hins : jarray_insert (.jarr id slots) (i : Int) (ss.getD j none) =
          ⟨true, .jarr id (slots.take i ++ ss.getD j none :: slots.drop i), 0⟩ := by
        simp only [jarray_insert, jis_array, Bool.not_true, Bool.false_eq_true, if_false,
          if_neg (by omega : ¬ ((i : Int) < 0)), hchk, Int.toNat_natCast]
        rw [jarray_insert_slots_le _ _ _ hlen]
      rw [hins]
      dsimp only
      have hlt : (slots.take i).length = i := by rw [List.length_take]; omega
      have hlen2 : i + 1 ≤ (slots.take i ++ ss.getD j none :: slots.drop i).length := by
        rw [List.length_append, hlt]; simp
      rw [ih _ (i + 1) (j + 1) e (by omega) (by omega) hess hlen2]
      simp only [Prod.mk.injEq, true_and]
      congr 1
      rw [hslot, List.drop_eq_getElem_cons hjss]
      have h1 : (slots.take i ++ ss[j] :: slots.drop i).take (i + 1) =
          slots.take i ++ [ss[j]] := by
        have hx : i + 1 = (slots.take i).length + 1 := by rw [hlt]
        rw [hx, List.take_append]
        rfl
      have h2 : (slots.take i ++ ss[j] :: slots.drop i).drop (i + 1) = slots.drop i := by
        have hx : i + 1 = (slots.take i).length + 1 := by rw [hlt]
        rw [hx, List.drop_append, List.drop_succ_cons, List.drop_zero]
      rw [h1, h2, show e - j = (e - (j + 1)) + 1 from by omega, List.take_succ_cons]
      simp [List.append_assoc]

theorem take_append_of_len {α : Type} (l1 l2 : List α) (n : Nat) (h : l1.length = n) :
    (l1 ++ l2).take n = l1 := by
  subst h
  exact List.take_left _ _

theorem drop_append_of_len {α : Type} (l1 l2 : List α) (n k : Nat) (h : l1.length = n) :
    (l1 ++ l2).drop (n + k) = l2.drop k := by
  subst h
  exact List.drop_append k

theorem jarray_splice_core_spec (did sid : Nat) (ds ss : List (Option JValue))
    (index toRemove b e : Int) (ow : JSpliceOwnership)
    (hi : 0 ≤ index) (hrm : 0 ≤ toRemove) (hb : 0 ≤ b) (hbe : b < e)
    (he : e ≤ (ss.length : Int))
    (hbound : index.toNat + toRemove.toNat ≤ ds.length)
    (hsan : ∀ s ∈ ss, check_insert_sanity (.jarr did []) (slotValue s) = true) :
    jarray_splice_core (.jarr did ds) index toRemove (.jarr sid ss) b e ow =
      (true, .jarr did (ds.take index.toNat ++
        (ss.drop b.toNat).take (e.toNat - b.toNat) ++
        ds.drop (index.toNat + toRemove.toNat))) := by
  have hBE : b.toNat < e.toNat := by omega
  have hE : e.toNat ≤ ss.length := by omega
  set I := index.toNat with hIdef
  set R := toRemove.toNat with hRdef
  set B := b.toNat with hBdef
  set E := e.toNat with hEdef
  have hmle : min R (E - B) ≤ R := min_le_left _ _
  have hmle2 : min R (E - B) ≤ E - B := min_le_right _ _
  have hIm : I + min R (E - B) ≤ ds.length := by omega
  have hMidLen : ((ss.drop B).take (min R (E - B))).length = min R (E - B) := by
    rw [List.length_take, List.length_drop]; omega
  have hTakeI : (ds.take I).length = I := by rw [List.length_take]; omega
  rw [jarray_splice_core, if_neg (by omega)]
  rw [if_neg (show ¬ (!valid_index_bounded (.jarr sid ss) b) = true by
    simp [valid_index_bounded, jis_array, jarray_size]; omega)]
  rw [if_neg (show ¬ (!valid_index_bounded (.jarr sid ss) (e - 1)) = true by
    simp [valid_index_bounded, jis_array, jarray_size]; omega)]
  rw [if_neg (by omega)]
  rw [if_neg (show ¬ (!jarray_splice_check_insert_sanity (.jarr did ds) (.jarr sid ss))
      = true by
    simp only [jarray_splice_check_insert_sanity, Bool.not_eq_true', Bool.not_eq_false,
      List.all_eq_true]
    intro s hs
    rw [check_insert_sanity_arr_congr did ds []]
    exact hsan s hs)]
  dsimp only
  rw [splice_overwrite_spec did ss ow hsan R ds I B E (by omega) hE (by omega)]
  dsimp only
  have hL1 : ((ds.take I ++ (ss.drop B).take (min R (E - B))).length) = I + min R (E - B) := by
    rw [List.length_append, hTakeI, hMidLen]
  have hlenD1 : (ds.take I ++ (ss.drop B).take (min R (E - B)) ++
      ds.drop (I + min R (E - B))).length = ds.length := by
    rw [List.length_append, List.length_append, hTakeI, hMidLen, List.length_drop]
    omega
  by_cases hRm : R - min R (E - B) ≠ 0
  · -- more to remove than the source range provides: removal phase
    have hm2 : min R (E - B) = E - B := by omega
    rw [if_pos hRm]
    rw [splice_remove_spec did (R - min R (E - B)) _ (I + min R (E - B))
      (by rw [hlenD1]; omega)]
    have htk := take_append_of_len (ds.take I ++ (ss.drop B).take (min R (E - B)))
      (ds.drop (I + min R (E - B))) (I + min R (E - B)) hL1
    have hdr : (ds.take I ++ (ss.drop B).take (min R (E - B)) ++
        ds.drop (I + min R (E - B))).drop
          (I + min R (E - B) + (R - min R (E - B))) = ds.drop (I + R) := by
      rw [drop_append_of_len _ _ _ _ hL1, List.drop_drop]
      congr 1
      omega
    rw [htk, hdr, hm2, List.append_assoc]
  · push_neg at hRm
    have hmR : min R (E - B) = R := by omega
    by_cases hj : B + min R (E - B) < E
    · -- more to insert than was removed: insertion phase
      rw [if_neg (by omega), if_pos hj]
      rw [splice_insert_spec did ss ow hsan (E - (B + min R (E - B))) _
        (I + min R (E - B)) (B + min R (E - B)) E rfl (by omega) hE
        (by rw [hlenD1]; omega)]
      have htk := take_append_of_len (ds.take I ++ (ss.drop B).take (min R (E - B)))
        (ds.drop (I + min R (E - B))) (I + min R (E - B)) hL1
      have hdr : (ds.take I ++ (ss.drop B).take (min R (E - B)) ++
          ds.drop (I + min R (E - B))).drop (I + min R (E - B)) =
            ds.drop (I + min R (E - B)) := by
        have h0 := drop_append_of_len (ds.take I ++ (ss.drop B).take (min R (E - B)))
          (ds.drop (I + min R (E - B))) (I + min R (E - B)) 0 hL1
        simpa using h0
      rw [htk, hdr]
      simp only [Prod.mk.injEq, true_and]
      congr 1
      have hmid : (ss.drop B).take (min R (E - B)) ++
          ((ss.drop (B + min R (E - B)))).take (E - (B + min R (E - B))) =
            (ss.drop B).take (E - B) := by
        rw [show ss.drop (B + min R (E - B)) = (ss.drop B).drop (min R (E - B)) from
          (List.drop_drop _ _ _).symm]
        rw [← List.take_add]
        congr 1
        omega
      rw [← hmid, hmR]
      simp [List.append_assoc]
    · -- removed range and source range coincide
      rw [if_neg (by omega), if_neg (by omega)]
      have h1 : min R (E - B) = E - B := by omega
      have h2 : I + min R (E - B) = I + R := by omega
      rw [h2, h1]

/-- C9 counterexample: the claimed range `0 <= begin <= end <= size(src)`
admits the empty range `begin = end`, but `jarray_splice` rejects it:
the `begin >= end` guard (jobject.c line 1310) returns false and leaves
the destination untouched. -/
theorem claim_C9_counterexample :
    jarray_splice (.jarr 0 [some .jnull]) 0 0 (.jarr 1 [some .jnull]) 0 0 .nochange =
      (false, .jarr 0 [some .jnull]) := rfl

/-- C9 (amended): for arrays `dst` and `src` (distinct nodes — aliasing
is outside the tree model), an in-bounds destination window
(`0 ≤ index`, `0 ≤ toRemove`, `index + toRemove ≤ size dst`), a
NON-EMPTY source range `0 ≤ begin < end ≤ size src` (an empty range is
rejected), and a passing cycle pre-check, `jarray_splice` succeeds and
replaces `dst[index .. index+toRemove)` with the elements
`src[begin .. end)`; the array grows when the inserted range is longer
than the removed one and shrinks when it is shorter, the new size being
`size dst - toRemove + (end - begin)`. -/
theorem claim_C9_amended (did sid : Nat) (ds ss : List (Option JValue))
    (index toRemove b e : Int) (ow : JSpliceOwnership)
    (hi : 0 ≤ index) (hrm : 0 ≤ toRemove) (hb : 0 ≤ b) (hbe : b < e)
    (he : e ≤ (ss.length : Int)) (hbound : index + toRemove ≤ (ds.length : Int))
    (hsan : jarray_splice_check_insert_sanity (.jarr did ds) (.jarr sid ss) = true) :
    jarray_splice (.jarr did ds) index toRemove (.jarr sid ss) b e ow =
      (true, .jarr did (ds.take index.toNat ++
        (ss.drop b.toNat).take (e.toNat - b.toNat) ++
        ds.drop (index.toNat + toRemove.toNat))) ∧
    jarray_size (jarray_splice (.jarr did ds) index toRemove (.jarr sid ss) b e ow).2 =
      ds.length - toRemove.toNat + (e.toNat - b.toNat) := by
  have hsan2 : ∀ s ∈ ss, check_insert_sanity (.jarr did []) (slotValue s) = true := by
    simp only [jarray_splice_check_insert_sanity, List.all_eq_true] at hsan
    intro s hs
    rw [← check_insert_sanity_arr_congr did ds []]
    exact hsan s hs
  have hbound2 : index.toNat + toRemove.toNat ≤ ds.length := by omega
  have hmain : jarray_splice (.jarr did ds) index toRemove (.jarr sid ss) b e ow =
      (true, .jarr did (ds.take index.toNat ++
        (ss.drop b.toNat).take (e.toNat - b.toNat) ++
        ds.drop (index.toNat + toRemove.toNat))) := by
    rw [jarray_splice]
    by_cases hR0 : toRemove ≠ 0
    · rw [if_pos hR0]
      rw [if_neg (show ¬ (!valid_index_bounded (.jarr did ds) index) = true by
        simp [valid_index_bounded, jis_array, jarray_size]; omega)]
      rw [if_neg (show ¬ (!valid_index_bounded (.jarr did ds) (index + toRemove - 1))
          = true by
        simp [valid_index_bounded, jis_array, jarray_size]; omega)]
      exact jarray_splice_core_spec did sid ds ss index toRemove b e ow hi hrm hb hbe he
        hbound2 hsan2
    · rw [if_neg hR0]
      push_neg at hR0
      rw [if_neg (by simp [jis_array])]
      rw [show max index 0 = index from by omega]
      exact jarray_splice_core_spec did sid ds ss index toRemove b e ow hi hrm hb hbe he
        hbound2 hsan2
  refine ⟨hmain, ?_⟩
  rw [hmain]
  simp only [jarray_size, List.length_append, List.length_take, List.length_drop]
  have hBE : b.toNat < e.toNat := by omega
  have hE : e.toNat ≤ ss.length := by omega
  omega

/-- Witness for the amended C9: replacing one element of a two-element
array by the single element of another array. -/
theorem claim_C9_amended_witness :
    jarray_splice (.jarr 0 [some .jnull, some .jnull]) 0 1
        (.jarr 1 [some (.jbool true)]) 0 1 .nochange =
      (true, .jarr 0 [some (.jbool true), some .jnull]) := by
  have h := (claim_C9_amended 0 1 [some .jnull, some .jnull] [some (.jbool true)]
    0 1 0 1 .nochange (by decide) (by decide) (by decide) (by decide) (by decide)
    (by decide)
    (by simp [jarray_splice_check_insert_sanity, check_insert_sanity, sameContainer,
      slotValue])).1
  simpa using h

/-! ### Claim C3: structural comparison and equality
(jobject.c lines 250-309, 560-640, 968-1009, 1597-1660) -/

/-- The `JValueType` kind rank used by the `(int)val1->m_type -
(int)val2->m_type` comparison.  The enum itself lives in a header that
is not among the provided sources; the claims are insensitive to the
exact injective assignment, which here follows the order of the switch
statements in jobject.c.  `JNULL` and `JINVALID` share the `JV_NULL`
rank. -/
def jtype_rank : JValue → Int
  | .jnull => 0
  | .jinvalid => 0
  | .jbool _ => 1
  | .jnum _ => 2
  | .jstr _ _ => 3
  | .jarr _ _ => 4
  | .jobj _ _ => 5

/-- The C `(int)` cast of a boolean. -/
def bti (b : Bool) : Int := if b then 1 else 0

/-- `jboolean_deref(val)->value`. -/
def jbool_value : JValue → Bool
  | .jbool b => b
  | _ => false

/-- The comparator order used by `qsort` over object keys
(`jstring_compare` through `qsort_helper`). -/
def keyLe (a b : Bytes) : Prop := jstring_compare a b ≤ 0

instance : DecidableRel keyLe :=
  fun a b => inferInstanceAs (Decidable (jstring_compare a b ≤ 0))

/-- The key sort performed by `jobject_compare` (the C uses `qsort` with
`jstring_compare`; any comparison sort yields the same list because the
comparator is a total order and, on the unique keys of a hash table,
tie-free). -/
def sortKeys (l : List Bytes) : List Bytes := List.insertionSort keyLe l

/-- The value fed to the recursive `jvalue_compare` inside
`jobject_compare`'s loop is strictly smaller than the entry list. -/
theorem jsize_lookupD_lt (es : List (Bytes × JValue)) (k : Bytes) :
    jsize (lookupD es k) < jsizeEntries es := by
  induction es with
  | nil => simp [lookupD, jobject_lookup, jsize, jsizeEntries]
  | cons p rest ih =>
      obtain ⟨k1, v⟩ := p
      by_cases h : (k1 == k) = true
      · have h2 : lookupD ((k1, v) :: rest) k = v := by
          simp [lookupD, jobject_lookup, List.find?_cons, h]
        rw [h2]; exact jsize_entry_lt k1 v rest
      · have h2 : lookupD ((k1, v) :: rest) k = lookupD rest k := by
          simp [lookupD, jobject_lookup, List.find?_cons, h]
        rw [h2]
        exact lt_trans ih (jsizeEntries_tail_lt _ _)

/- `jvalue_compare` (jobject.c lines 279-309) with its helpers
`jarray_compare` (lines 989-1009, the element loop then the size
difference) and `jobject_compare` (lines 592-640, both key lists sorted,
then pairwise key and looked-up-value comparison, then the size
difference).  The pointer-equality fast path `val1 == val2` is not
modelled: it returns 0 exactly where the computed comparison does. -/
mutual

def jvalue_compare (env : FloatV) (v w : JValue) : Int :=
  let tdiff := jtype_rank v - jtype_rank w
  if tdiff ≠ 0 then tdiff
  else
    match v, w with
    | .jnull, w2 => bti (jis_valid (some .jnull)) - bti (jis_valid (some w2))
    | .jinvalid, w2 => bti (jis_valid (some .jinvalid)) - bti (jis_valid (some w2))
    | .jbool b1, .jbool b2 => bti b1 - bti b2
    | .jnum n1, .jnum n2 => jnumber_compare n1 n2 env
    | .jstr _ s1, .jstr _ s2 => jstring_compare s1 s2
    | .jarr _ xs, .jarr _ ys =>
        jarray_cmp_walk env xs ys ((xs.length : Int) - (ys.length : Int))
    | .jobj _ es, .jobj _ fs =>
        jobject_cmp_walk env es fs ((es.length : Int) - (fs.length : Int))
          (sortKeys (es.map Prod.fst)) (sortKeys (fs.map Prod.fst))
    | _, _ => 0
termination_by (jsize v, 1, 0)
decreasing_by
  · exact Prod.Lex.left _ _ (by simp [jsize] <;> omega)
  · exact Prod.Lex.left _ _ (by simp [jsize] <;> omega)

def jarray_cmp_walk (env : FloatV) (xs ys : List (Option JValue)) (dflt : Int) : Int :=
  match xs, ys with
  | x :: xs', y :: ys' =>
      let r := jvalue_compare env (slotValue x) (slotValue y)
      if r ≠ 0 then r else jarray_cmp_walk env xs' ys' dflt
  | _, _ => dflt
termination_by (jsizeSlots xs, 0, 0)
decreasing_by
  · exact Prod.Lex.left _ _ (jsize_slotValue_lt_cons _ _)
  · exact Prod.Lex.left _ _ (jsizeSlots_tail_lt _ _)

def jobject_cmp_walk (env : FloatV) (es fs : List (Bytes × JValue)) (dflt : Int)
    (ks ls : List Bytes) : Int :=
  match ks, ls with
  | k :: ks', l :: ls' =>
      let r := jstring_compare k l
      if r ≠ 0 then r
      else
        let rv := jvalue_compare env (lookupD es k) (lookupD fs l)
        if rv ≠ 0 then rv else jobject_cmp_walk env es fs dflt ks' ls'
  | _, _ => dflt
termination_by (jsizeEntries es, 0, ks.length)
decreasing_by
  · exact Prod.Lex.left _ _ (jsize_lookupD_lt es k)
  · exact Prod.Lex.right _ (Prod.Lex.right _ (by simp only [List.length_cons]; omega))

end

/- `jvalue_equal` (jobject.c lines 250-277) with `jarray_equal` (lines
968-987) and `jobject_equal` (lines 560-585: size check, then each
entry's key looked up in the other object and the values compared). -/
mutual

def jvalue_equal (env : FloatV) (v w : JValue) : Bool :=
  if jtype_rank v ≠ jtype_rank w then false
  else
    match v, w with
    | .jnull, _ => true
    | .jinvalid, _ => true
    | .jbool b1, .jbool b2 => b1 == b2
    | .jnum n1, .jnum n2 => jnumber_compare n1 n2 env == 0
    | .jstr _ s1, .jstr _ s2 => jstring_equal_bytes s1 s2
    | .jarr _ xs, .jarr _ ys => (xs.length == ys.length) && jarray_eq_walk env xs ys
    | .jobj _ es, .jobj _ fs => (es.length == fs.length) && jobject_eq_walk env fs es
    | _, _ => false
termination_by (jsize v, 1, 0)
decreasing_by
  · exact Prod.Lex.left _ _ (by simp [jsize] <;> omega)
  · exact Prod.Lex.left _ _ (by simp [jsize] <;> omega)

def jarray_eq_walk (env : FloatV) (xs ys : List (Option JValue)) : Bool :=
  match xs, ys with
  | x :: xs', y :: ys' =>
      jvalue_equal env (slotValue x) (slotValue y) && jarray_eq_walk env xs' ys'
  | _, _ => true
termination_by (jsizeSlots xs, 0, 0)
decreasing_by
  · exact Prod.Lex.left _ _ (jsize_slotValue_lt_cons _ _)
  · exact Prod.Lex.left _ _ (jsizeSlots_tail_lt _ _)

def jobject_eq_walk (env : FloatV) (fs : List (Bytes × JValue)) :
    List (Bytes × JValue) → Bool
  | [] => true
  | (k, x) :: rest =>
      match jobject_lookup fs k with
      | none => false
      | some y => jvalue_equal env x y && jobject_eq_walk env fs rest
termination_by es => (jsizeEntries es, 0, 0)
decreasing_by
  · exact Prod.Lex.left _ _ (jsize_entry_lt _ _ _)
  · exact Prod.Lex.left _ _ (jsizeEntries_tail_lt _ _)

end

/-- Byte-wise distinctness of an entry list's keys — the invariant
`g_hash_table_replace` maintains for every live object. -/
def nodupKeys : List (Bytes × JValue) → Bool
  | [] => true
  | (k, _) :: rest => !(rest.any fun p => p.1 == k) && nodupKeys rest

/- Well-formedness: every object reachable in the tree has byte-wise
distinct keys (true of every object the library can build). -/
mutual

def jwf : JValue → Bool
  | .jarr _ slots => jwfSlots slots
  | .jobj _ es => nodupKeys es && jwfEntries es
  | _ => true

def jwfSlots : List (Option JValue) → Bool
  | [] => true
  | none :: rest => jwfSlots rest
  | some v :: rest => jwf v && jwfSlots rest

def jwfEntries : List (Bytes × JValue) → Bool
  | [] => true
  | (_, v) :: rest => jwf v && jwfEntries rest

end

/- Invalid-freedom: no reachable position of the tree reads back as the
`JINVALID` sentinel (no `jinvalid` node and no `NULL` array slot). -/
mutual

def jnoInvalid : JValue → Bool
  | .jinvalid => false
  | .jarr _ slots => jniSlots slots
  | .jobj _ es => jniEntries es
  | _ => true

def jniSlots : List (Option JValue) → Bool
  | [] => true
  | none :: _ => false
  | some v :: rest => jnoInvalid v && jniSlots rest

def jniEntries : List (Bytes × JValue) → Bool
  | [] => true
  | (_, v) :: rest => jnoInvalid v && jniEntries rest

end

/-! #### Antisymmetry of the comparisons -/

theorem fgt_asymm (a b : FloatV) (h : fgt a b = true) : fgt b a = false := by
  cases a <;> cases b <;> simp_all [fgt] <;> linarith

theorem fcmp_antisym (a b : FloatV) : fcmp a b = -fcmp b a := by
  have h := fgt_asymm a b
  unfold fcmp
  cases h1 : fgt a b <;> cases h2 : fgt b a <;> simp_all

theorem icmp_antisym (a b : Int) : icmp a b = -icmp b a := by
  unfold icmp; split_ifs <;> omega

/-- The effective floating value an operand contributes to a mixed
comparison: the stored double, the promoted int, the promoted raw int64
reading, the raw double conversion — or the indeterminate `env`. -/
def numF (n : JNum) (env : FloatV) : FloatV :=
  match n with
  | .float q => .fin q
  | .int i => .fin (i : ℚ)
  | .raw s =>
      match jstr_to_i64 s with
      | some k => .fin (k : ℚ)
      | none => ((jstr_to_double s).map FloatV.fin).getD env

/-- `jnumber_compare` compares as int64 exactly when both operands have
an int64 reading, and otherwise as (possibly indeterminate) doubles. -/
theorem jnumber_compare_eq (n m : JNum) (env : FloatV) :
    jnumber_compare n m env =
      match numAsI64 n, numAsI64 m with
      | some i, some j => icmp i j
      | _, _ => fcmp (numF n env) (numF m env) := by
  cases n with
  | int i =>
      cases m with
      | int j => simp [jnumber_compare, jnumber_compare_i64, numAsI64, numF]
      | float q => simp [jnumber_compare, jnumber_compare_f64, numAsI64, numF]
      | raw t =>
          cases h2 : jstr_to_i64 t <;>
            simp [jnumber_compare, jnumber_compare_i64, jnumber_compare_f64,
              numAsI64, numF, h2]
  | float q =>
      cases m with
      | int j => simp [jnumber_compare, jnumber_compare_i64, numAsI64, numF]
      | float p => simp [jnumber_compare, jnumber_compare_f64, numAsI64, numF]
      | raw t =>
          cases h2 : jstr_to_i64 t <;>
            simp [jnumber_compare, jnumber_compare_i64, jnumber_compare_f64,
              numAsI64, numF, h2]
  | raw s =>
      cases m with
      | int j =>
          cases h1 : jstr_to_i64 s <;>
            simp [jnumber_compare, jnumber_compare_i64, jnumber_compare_f64,
              numAsI64, numF, h1]
      | float p =>
          cases h1 : jstr_to_i64 s <;>
            simp [jnumber_compare, jnumber_compare_i64, jnumber_compare_f64,
              numAsI64, numF, h1]
      | raw t =>
          cases h1 : jstr_to_i64 s <;> cases h2 : jstr_to_i64 t <;>
            simp [jnumber_compare, jnumber_compare_i64, jnumber_compare_f64,
              numAsI64, numF, h1, h2]

theorem jnumber_compare_antisym (a b : JNum) (env : FloatV) :
    jnumber_compare a b env = -jnumber_compare b a env := by
  rw [jnumber_compare_eq, jnumber_compare_eq]
  cases ha : numAsI64 a <;> cases hb : numAsI64 b
  · exact fcmp_antisym _ _
  · exact fcmp_antisym _ _
  · exact fcmp_antisym _ _
  · exact icmp_antisym _ _

theorem memcmpInt_antisym (s t : Bytes) : memcmpInt s t = -memcmpInt t s := by
  induction s generalizing t with
  | nil => cases t <;> simp [memcmpInt]
  | cons x s ih =>
      cases t with
      | nil => simp [memcmpInt]
      | cons y t =>
          by_cases h : x = y
          · subst h; simp [memcmpInt, ih]
          · have h2 : y ≠ x := fun hh => h hh.symm
            simp only [memcmpInt, if_pos h, if_pos h2]
            omega

theorem jstring_compare_antisym (s t : Bytes) : jstring_compare s t = -jstring_compare t s := by
  simp only [jstring_compare, memcmpInt_antisym s t]
  by_cases h : memcmpInt t s = 0
  · simp [h]
  · simp [h]

/-- `x ∈ xs → jsize (slotValue x) < jsizeSlots xs`. -/
theorem jsize_slotValue_lt_of_mem (x : Option JValue) (xs : List (Option JValue))
    (h : x ∈ xs) : jsize (slotValue x) < jsizeSlots xs := by
  induction xs with
  | nil => cases h
  | cons y ys ih =>
      rcases List.mem_cons.mp h with h1 | h1
      · subst h1; exact jsize_slotValue_lt_cons _ _
      · exact lt_trans (ih h1) (jsizeSlots_tail_lt _ _)

theorem jarray_cmp_walk_nil_left (env : FloatV) (ys : List (Option JValue)) (d : Int) :
    jarray_cmp_walk env [] ys d = d := by
  cases ys <;> simp [jarray_cmp_walk]

theorem jarray_cmp_walk_nil_right (env : FloatV) (xs : List (Option JValue)) (d : Int) :
    jarray_cmp_walk env xs [] d = d := by
  cases xs <;> simp [jarray_cmp_walk]

theorem jarray_cmp_walk_cons (env : FloatV) (x : Option JValue) (xs : List (Option JValue))
    (y : Option JValue) (ys : List (Option JValue)) (d : Int) :
    jarray_cmp_walk env (x :: xs) (y :: ys) d =
      (if jvalue_compare env (slotValue x) (slotValue y) ≠ 0 then
        jvalue_compare env (slotValue x) (slotValue y)
      else jarray_cmp_walk env xs ys d) := by
  simp [jarray_cmp_walk]

theorem jobject_cmp_walk_nil_left (env : FloatV) (es fs : List (Bytes × JValue))
    (d : Int) (ls : List Bytes) : jobject_cmp_walk env es fs d [] ls = d := by
  cases ls <;> simp [jobject_cmp_walk]

theorem jobject_cmp_walk_nil_right (env : FloatV) (es fs : List (Bytes × JValue))
    (d : Int) (ks : List Bytes) : jobject_cmp_walk env es fs d ks [] = d := by
  cases ks <;> simp [jobject_cmp_walk]

theorem jobject_cmp_walk_cons (env : FloatV) (es fs : List (Bytes × JValue)) (d : Int)
    (k : Bytes) (ks : List Bytes) (l : Bytes) (ls : List Bytes) :
    jobject_cmp_walk env es fs d (k :: ks) (l :: ls) =
      (if jstring_compare k l ≠ 0 then jstring_compare k l
      else if jvalue_compare env (lookupD es k) (lookupD fs l) ≠ 0 then
        jvalue_compare env (lookupD es k) (lookupD fs l)
      else jobject_cmp_walk env es fs d ks ls) := by
  simp [jobject_cmp_walk]

theorem jarray_cmp_walk_antisym (env : FloatV) (xs : List (Option JValue)) :
    ∀ (ys : List (Option JValue)) (d : Int),
      (∀ p ∈ xs.zip ys, jvalue_compare env (slotValue p.1) (slotValue p.2)
          = -jvalue_compare env (slotValue p.2) (slotValue p.1)) →
      jarray_cmp_walk env xs ys d = -jarray_cmp_walk env ys xs (-d) := by
  induction xs with
  | nil => intro ys d _; rw [jarray_cmp_walk_nil_left, jarray_cmp_walk_nil_right]; omega
  | cons x xs ih =>
      intro ys d hp
      cases ys with
      | nil => rw [jarray_cmp_walk_nil_left, jarray_cmp_walk_nil_right]; omega
      | cons y ys =>
          rw [jarray_cmp_walk_cons, jarray_cmp_walk_cons]
          have hxy := hp (x, y) (by simp [List.zip_cons_cons])
          rw [hxy]
          by_cases h : jvalue_compare env (slotValue y) (slotValue x) = 0
          · rw [h]
            simp only [neg_zero, ne_eq, not_true_eq_false, if_neg, if_false]
            exact ih ys d (fun p hq => hp p (by simp [List.zip_cons_cons, hq]))
          · have hne : ¬(-jvalue_compare env (slotValue y) (slotValue x) = 0) :=
              fun hh => h (by omega)
            rw [if_pos hne, if_pos h]

theorem jobject_cmp_walk_antisym (env : FloatV) (es fs : List (Bytes × JValue))
    (d : Int) (ks : List Bytes) :
    ∀ ls : List Bytes,
      (∀ p ∈ ks.zip ls, jvalue_compare env (lookupD es p.1) (lookupD fs p.2)
          = -jvalue_compare env (lookupD fs p.2) (lookupD es p.1)) →
      jobject_cmp_walk env es fs d ks ls = -jobject_cmp_walk env fs es (-d) ls ks := by
  induction ks with
  | nil => intro ls _; rw [jobject_cmp_walk_nil_left, jobject_cmp_walk_nil_right]; omega
  | cons k ks ih =>
      intro ls hp
      cases ls with
      | nil => rw [jobject_cmp_walk_nil_left, jobject_cmp_walk_nil_right]; omega
      | cons l ls =>
          rw [jobject_cmp_walk_cons, jobject_cmp_walk_cons]
          rw [jstring_compare_antisym k l]
          by_cases hk : jstring_compare l k = 0
          · rw [hk]
            simp only [neg_zero, ne_eq, not_true_eq_false, if_neg, if_false]
            have hkl := hp (k, l) (by simp [List.zip_cons_cons])
            rw [hkl]
            by_cases hv : jvalue_compare env (lookupD fs l) (lookupD es k) = 0
            · rw [hv]
              simp only [neg_zero, ne_eq, not_true_eq_false, if_neg, if_false]
              exact ih ls (fun p hq => hp p (by simp [List.zip_cons_cons, hq]))
            · have hne : ¬(-jvalue_compare env (lookupD fs l) (lookupD es k) = 0) :=
                fun hh => hv (by omega)
              rw [if_pos hne, if_pos hv]
          · have hne : ¬(-jstring_compare l k = 0) := fun hh => hk (by omega)
            rw [if_pos hne, if_pos hk]

theorem jvalue_compare_antisym (env : FloatV) (v w : JValue) :
    jvalue_compare env v w = -jvalue_compare env w v := by
  have H : ∀ n, ∀ v w : JValue, jsize v ≤ n →
      jvalue_compare env v w = -jvalue_compare env w v := by
    intro n
    induction n with
    | zero => intro v w h; have := jsize_pos v; omega
    | succ n ih =>
        intro v w hv
        cases v with
        | jnull =>
            cases w <;>
              simp [jvalue_compare, jtype_rank, bti, jis_valid, jis_valid_unsafe]
        | jinvalid =>
            cases w <;>
              simp [jvalue_compare, jtype_rank, bti, jis_valid, jis_valid_unsafe]
        | jbool b1 =>
            cases w
            case jbool b2 =>
              cases b1 <;> cases b2 <;>
                simp [jvalue_compare, jtype_rank, bti, jis_valid, jis_valid_unsafe]
            all_goals
              simp [jvalue_compare, jtype_rank, bti, jis_valid, jis_valid_unsafe]
        | jnum n1 =>
            cases w
            case jnum n2 =>
              simpa [jvalue_compare, jtype_rank] using jnumber_compare_antisym n1 n2 env
            all_goals
              simp [jvalue_compare, jtype_rank, bti, jis_valid, jis_valid_unsafe]
        | jstr a1 s1 =>
            cases w
            case jstr a2 s2 =>
              simpa [jvalue_compare, jtype_rank] using jstring_compare_antisym s1 s2
            all_goals
              simp [jvalue_compare, jtype_rank, bti, jis_valid, jis_valid_unsafe]
        | jarr i xs =>
            cases w
            case jarr j ys =>
              have hsz : jsizeSlots xs ≤ n := by
                have : jsize (JValue.jarr i xs) = 1 + jsizeSlots xs := by simp [jsize]
                omega
              have hw := jarray_cmp_walk_antisym env xs ys
                ((xs.length : Int) - (ys.length : Int))
                (fun p hp => by
                  have hm := (List.of_mem_zip hp).1
                  exact ih (slotValue p.1) (slotValue p.2)
                    (le_of_lt (lt_of_lt_of_le (jsize_slotValue_lt_of_mem _ _ hm) hsz)))
              simp only [jvalue_compare, jtype_rank]
              norm_num
              rw [hw, neg_sub]
            all_goals
              simp [jvalue_compare, jtype_rank, bti, jis_valid, jis_valid_unsafe]
        | jobj i es =>
            cases w
            case jobj j fs =>
              have hsz : jsizeEntries es ≤ n := by
                have : jsize (JValue.jobj i es) = 1 + jsizeEntries es := by simp [jsize]
                omega
              have hw := jobject_cmp_walk_antisym env es fs
                ((es.length : Int) - (fs.length : Int))
                (sortKeys (es.map Prod.fst)) (sortKeys (fs.map Prod.fst))
                (fun p _ => by
                  exact ih (lookupD es p.1) (lookupD fs p.2)
                    (le_of_lt (lt_of_lt_of_le (jsize_lookupD_lt es p.1) hsz)))
              simp only [jvalue_compare, jtype_rank]
              norm_num
              rw [hw, neg_sub]
            all_goals
              simp [jvalue_compare, jtype_rank, bti, jis_valid, jis_valid_unsafe]
  exact H (jsize v) v w (le_refl _)

/-! #### The string comparison is a total order deciding byte equality -/

theorem memcmpInt_self (s : Bytes) : memcmpInt s s = 0 := by
  induction s with
  | nil => simp [memcmpInt]
  | cons x s ih => simp [memcmpInt, ih]

theorem memcmpInt_cons_self (x : Nat) (s t : Bytes) :
    memcmpInt (x :: s) (x :: t) = memcmpInt s t := by
  simp [memcmpInt]

theorem jstring_compare_self (s : Bytes) : jstring_compare s s = 0 := by
  simp [jstring_compare, memcmpInt_self]

theorem bytes_eq_of_memcmp (s : Bytes) :
    ∀ t : Bytes, memcmpInt s t = 0 → s.length = t.length → s = t := by
  induction s with
  | nil => intro t _ hl; cases t <;> simp_all
  | cons x s ih =>
      intro t hm hl
      cases t with
      | nil => simp at hl
      | cons y t =>
          by_cases h : x = y
          · subst h
            rw [memcmpInt_cons_self] at hm
            simp only [List.length_cons, Nat.add_right_cancel_iff] at hl
            rw [ih t hm hl]
          · rw [memcmpInt, if_pos h] at hm
            exact absurd hm (by omega)

theorem jstring_compare_eq_zero_iff (s t : Bytes) : jstring_compare s t = 0 ↔ s = t := by
  constructor
  · intro h
    by_cases hm : memcmpInt s t = 0
    · simp only [jstring_compare, hm, ne_eq, not_true_eq_false, if_neg,
        not_false_eq_true, if_false] at h
      exact bytes_eq_of_memcmp s t hm (by omega)
    · simp [jstring_compare, hm] at h
  · intro h; subst h; exact jstring_compare_self s

theorem jstring_compare_zero_iff_equal_bytes (s t : Bytes) :
    jstring_compare s t = 0 ↔ jstring_equal_bytes s t = true := by
  rw [jstring_compare_eq_zero_iff]
  constructor
  · intro h; subst h; simp [jstring_equal_bytes, memcmpInt_self]
  · intro h
    simp only [jstring_equal_bytes, Bool.and_eq_true, beq_iff_eq] at h
    exact bytes_eq_of_memcmp s t h.2 h.1

theorem jstring_compare_nil_left (t : Bytes) : jstring_compare [] t = -(t.length : Int) := by
  cases t <;> simp [jstring_compare, memcmpInt]

theorem jstring_compare_nil_right (s : Bytes) : jstring_compare s [] = (s.length : Int) := by
  cases s <;> simp [jstring_compare, memcmpInt]

theorem jstring_compare_cons (x : Nat) (s : Bytes) (y : Nat) (t : Bytes) :
    jstring_compare (x :: s) (y :: t) =
      (if x = y then jstring_compare s t else (x : Int) - (y : Int)) := by
  by_cases h : x = y
  · subst h
    rw [if_pos rfl]
    simp only [jstring_compare, memcmpInt_cons_self]
    split_ifs with hm
    · rfl
    · simp only [List.length_cons]
      push_cast
      omega
  · rw [if_neg h]
    have hxy : (x : Int) - (y : Int) ≠ 0 := fun hh => h (by omega)
    have hrw : memcmpInt (x :: s) (y :: t) = (x : Int) - (y : Int) := by
      rw [memcmpInt, if_pos h]
    simp only [jstring_compare, hrw]
    rw [if_pos hxy]

theorem jstring_compare_trans (s : Bytes) :
    ∀ t u : Bytes, jstring_compare s t ≤ 0 → jstring_compare t u ≤ 0 →
      jstring_compare s u ≤ 0 := by
  induction s with
  | nil => intro t u _ _; rw [jstring_compare_nil_left]; omega
  | cons x s ih =>
      intro t u h1 h2
      cases t with
      | nil =>
          rw [jstring_compare_nil_right] at h1
          exact absurd h1 (by simp only [List.length_cons]; push_cast; omega)
      | cons y t =>
          cases u with
          | nil =>
              rw [jstring_compare_nil_right] at h2
              exact absurd h2 (by simp only [List.length_cons]; push_cast; omega)
          | cons z u =>
              rw [jstring_compare_cons] at h1 h2 ⊢
              by_cases hxy : x = y
              · subst hxy
                rw [if_pos rfl] at h1
                by_cases hyz : x = z
                · subst hyz
                  rw [if_pos rfl] at h2 ⊢
                  exact ih t u h1 h2
                · rw [if_neg hyz] at h2 ⊢
                  exact h2
              · rw [if_neg hxy] at h1
                by_cases hyz : y = z
                · subst hyz
                  rw [if_neg hxy]
                  exact h1
                · rw [if_neg hyz] at h2
                  have hxz : x ≠ z := by omega
                  rw [if_neg hxz]
                  omega

instance : IsTrans Bytes keyLe :=
  ⟨fun a b c h1 h2 => jstring_compare_trans a b c h1 h2⟩

instance : IsTotal Bytes keyLe :=
  ⟨fun a b => by
    unfold keyLe
    rw [jstring_compare_antisym a b]
    omega⟩

instance : IsAntisymm Bytes keyLe :=
  ⟨fun a b h1 h2 => by
    have h3 := jstring_compare_antisym a b
    unfold keyLe at h1 h2
    exact (jstring_compare_eq_zero_iff a b).mp (by omega)⟩

/-! #### Zero/true characterisations of the comparison and equality walks -/

theorem jarray_cmp_walk_zero_iff (env : FloatV) (xs : List (Option JValue)) :
    ∀ (ys : List (Option JValue)) (d : Int),
      (jarray_cmp_walk env xs ys d = 0 ↔
        ((∀ p ∈ xs.zip ys,
            jvalue_compare env (slotValue p.1) (slotValue p.2) = 0) ∧ d = 0)) := by
  induction xs with
  | nil => intro ys d; rw [jarray_cmp_walk_nil_left]; simp
  | cons x xs ih =>
      intro ys d
      cases ys with
      | nil => rw [jarray_cmp_walk_nil_right]; simp
      | cons y ys =>
          rw [jarray_cmp_walk_cons]
          by_cases h : jvalue_compare env (slotValue x) (slotValue y) = 0
          · rw [if_neg (by omega)]
            rw [ih ys d]
            simp [List.zip_cons_cons, h]
          · rw [if_pos h]
            simp only [List.zip_cons_cons]
            constructor
            · intro hh; exact absurd hh h
            · intro hh
              exact absurd (hh.1 (x, y) (by simp)) h

theorem jobject_cmp_walk_zero_iff (env : FloatV) (es fs : List (Bytes × JValue))
    (d : Int) (ks : List Bytes) :
    ∀ ls : List Bytes,
      (jobject_cmp_walk env es fs d ks ls = 0 ↔
        ((∀ p ∈ ks.zip ls, jstring_compare p.1 p.2 = 0 ∧
            jvalue_compare env (lookupD es p.1) (lookupD fs p.2) = 0) ∧ d = 0)) := by
  induction ks with
  | nil => intro ls; rw [jobject_cmp_walk_nil_left]; simp
  | cons k ks ih =>
      intro ls
      cases ls with
      | nil => rw [jobject_cmp_walk_nil_right]; simp
      | cons l ls =>
          rw [jobject_cmp_walk_cons]
          by_cases hk : jstring_compare k l = 0
          · rw [if_neg (by omega)]
            by_cases hv : jvalue_compare env (lookupD es k) (lookupD fs l) = 0
            · rw [if_neg (by omega)]
              rw [ih ls]
              simp [List.zip_cons_cons, hk, hv]
            · rw [if_pos hv]
              simp only [List.zip_cons_cons]
              constructor
              · intro hh; exact absurd hh hv
              · intro hh
                exact absurd (hh.1 (k, l) (by simp)).2 hv
          · rw [if_pos hk]
            simp only [List.zip_cons_cons]
            constructor
            · intro hh; exact absurd hh hk
            · intro hh
              exact absurd (hh.1 (k, l) (by simp)).1 hk

theorem jarray_eq_walk_nil_left (env : FloatV) (ys : List (Option JValue)) :
    jarray_eq_walk env [] ys = true := by
  cases ys <;> simp [jarray_eq_walk]

theorem jarray_eq_walk_nil_right (env : FloatV) (xs : List (Option JValue)) :
    jarray_eq_walk env xs [] = true := by
  cases xs <;> simp [jarray_eq_walk]

theorem jarray_eq_walk_cons (env : FloatV) (x : Option JValue) (xs : List (Option JValue))
    (y : Option JValue) (ys : List (Option JValue)) :
    jarray_eq_walk env (x :: xs) (y :: ys) =
      (jvalue_equal env (slotValue x) (slotValue y) && jarray_eq_walk env xs ys) := by
  simp [jarray_eq_walk]

theorem jarray_eq_walk_iff (env : FloatV) (xs : List (Option JValue)) :
    ∀ ys : List (Option JValue),
      (jarray_eq_walk env xs ys = true ↔
        ∀ p ∈ xs.zip ys, jvalue_equal env (slotValue p.1) (slotValue p.2) = true) := by
  induction xs with
  | nil => intro ys; rw [jarray_eq_walk_nil_left]; simp
  | cons x xs ih =>
      intro ys
      cases ys with
      | nil => rw [jarray_eq_walk_nil_right]; simp
      | cons y ys =>
          rw [jarray_eq_walk_cons]
          simp only [Bool.and_eq_true, ih ys, List.zip_cons_cons, List.mem_cons]
          constructor
          · rintro ⟨h1, h2⟩ p hp
            rcases hp with hp | hp
            · subst hp; exact h1
            · exact h2 p hp
          · intro h
            exact ⟨h (x, y) (Or.inl rfl), fun p hp => h p (Or.inr hp)⟩

theorem jobject_eq_walk_nil (env : FloatV) (fs : List (Bytes × JValue)) :
    jobject_eq_walk env fs [] = true := by
  simp [jobject_eq_walk]

theorem jobject_eq_walk_cons (env : FloatV) (fs : List (Bytes × JValue)) (k : Bytes)
    (x : JValue) (rest : List (Bytes × JValue)) :
    jobject_eq_walk env fs ((k, x) :: rest) =
      (match jobject_lookup fs k with
      | none => false
      | some y => jvalue_equal env x y && jobject_eq_walk env fs rest) := by
  simp [jobject_eq_walk]

theorem jobject_eq_walk_iff (env : FloatV) (fs : List (Bytes × JValue)) :
    ∀ es : List (Bytes × JValue),
      (jobject_eq_walk env fs es = true ↔
        ∀ p ∈ es, ∃ y, jobject_lookup fs p.1 = some y ∧ jvalue_equal env p.2 y = true) := by
  intro es
  induction es with
  | nil => rw [jobject_eq_walk_nil]; simp
  | cons p rest ih =>
      obtain ⟨k, x⟩ := p
      rw [jobject_eq_walk_cons]
      cases hl : jobject_lookup fs k with
      | none =>
          simp only [List.mem_cons]
          constructor
          · intro hh; exact absurd hh (by simp)
          · intro hh
            obtain ⟨y, hy, _⟩ := hh (k, x) (Or.inl rfl)
            rw [hl] at hy; cases hy
      | some y =>
          simp only [Bool.and_eq_true, ih, List.mem_cons]
          constructor
          · rintro ⟨h1, h2⟩ q hq
            rcases hq with hq | hq
            · subst hq; exact ⟨y, hl, h1⟩
            · exact h2 q hq
          · intro h
            refine ⟨?_, fun q hq => h q (Or.inr hq)⟩
            obtain ⟨z, hz, he⟩ := h (k, x) (Or.inl rfl)
            rw [hl] at hz
            cases hz
            exact he

/-! #### Hash-table lookup against distinct keys -/

theorem nodupKeys_lookup (es : List (Bytes × JValue)) (hd : nodupKeys es = true) :
    ∀ k x, (k, x) ∈ es → jobject_lookup es k = some x := by
  induction es with
  | nil => intro k x h; cases h
  | cons p rest ih =>
      obtain ⟨k1, v⟩ := p
      simp only [nodupKeys, Bool.and_eq_true, Bool.not_eq_true', List.any_eq_false] at hd
      intro k x hm
      rcases List.mem_cons.mp hm with hm | hm
      · cases hm
        simp [jobject_lookup, List.find?_cons]
      · by_cases hk : k1 = k
        · subst hk
          have := hd.1 (k1, x) hm
          simp at this
        · have : ((k1, v).1 == k) = false := by simp [hk]
          simp only [jobject_lookup, List.find?_cons, this]
          exact ih hd.2 k x hm

theorem lookup_mem (es : List (Bytes × JValue)) (k : Bytes) (y : JValue)
    (h : jobject_lookup es k = some y) : (k, y) ∈ es := by
  simp only [jobject_lookup, Option.map_eq_some'] at h
  obtain ⟨p, hp, hp2⟩ := h
  have hmem := List.mem_of_find?_eq_some hp
  have hpred := List.find?_some hp
  simp only [beq_iff_eq] at hpred
  obtain ⟨p1, p2⟩ := p
  simp only at hpred hp2
  subst hpred; subst hp2
  exact hmem

theorem lookup_isSome_of_mem_keys (es : List (Bytes × JValue)) (k : Bytes)
    (h : k ∈ es.map Prod.fst) : ∃ y, jobject_lookup es k = some y := by
  induction es with
  | nil => simp at h
  | cons q rest ih =>
      by_cases hq1 : (q.1 == k) = true
      · exact ⟨q.2, by simp [jobject_lookup, List.find?_cons, hq1]⟩
      · have hq2 : (q.1 == k) = false := by simp_all
        have hr : k ∈ rest.map Prod.fst := by
          simp only [List.map_cons, List.mem_cons] at h
          rcases h with h | h
          · exact absurd (beq_iff_eq.mpr h.symm) (by simp [hq2])
          · exact h
        obtain ⟨y, hy⟩ := ih hr
        refine ⟨y, ?_⟩
        simp only [jobject_lookup, List.find?_cons, hq2] at hy ⊢
        exact hy

/-- `(k,x) ∈ es → jsize x < jsizeEntries es`. -/
theorem jsize_mem_entries (k : Bytes) (x : JValue) (es : List (Bytes × JValue))
    (h : (k, x) ∈ es) : jsize x < jsizeEntries es := by
  induction es with
  | nil => cases h
  | cons p rest ih =>
      rcases List.mem_cons.mp h with h1 | h1
      · cases h1; exact jsize_entry_lt _ _ _
      · exact lt_trans (ih h1) (jsizeEntries_tail_lt _ _)

/-! #### Sorted key lists -/

theorem nodup_map_fst_of_nodupKeys (es : List (Bytes × JValue))
    (h : nodupKeys es = true) : (es.map Prod.fst).Nodup := by
  induction es with
  | nil => simp
  | cons p rest ih =>
      obtain ⟨k1, v⟩ := p
      simp only [nodupKeys, Bool.and_eq_true, Bool.not_eq_true', List.any_eq_false] at h
      simp only [List.map_cons, List.nodup_cons]
      refine ⟨?_, ih h.2⟩
      intro hmem
      obtain ⟨q, hq, hq1⟩ := List.mem_map.mp hmem
      have := h.1 q hq
      simp [hq1] at this

theorem sortKeys_eq_of_perm (l1 l2 : List Bytes) (h : l1.Perm l2) :
    sortKeys l1 = sortKeys l2 := by
  refine List.eq_of_perm_of_sorted ?_ (List.sorted_insertionSort keyLe l1)
    (List.sorted_insertionSort keyLe l2)
  exact ((List.perm_insertionSort keyLe l1).trans h).trans
    (List.perm_insertionSort keyLe l2).symm

theorem fst_eq_snd_of_mem_zip_self (l : List Bytes) :
    ∀ p ∈ l.zip l, p.1 = p.2 := by
  induction l with
  | nil => intro p hp; cases hp
  | cons x xs ih =>
      intro p hp
      rcases List.mem_cons.mp hp with h1 | h1
      · subst h1; rfl
      · exact ih p h1

theorem mem_zip_self_of_mem (l : List Bytes) (k : Bytes) (h : k ∈ l) :
    (k, k) ∈ l.zip l := by
  induction l with
  | nil => cases h
  | cons x xs ih =>
      rcases List.mem_cons.mp h with h1 | h1
      · subst h1; simp [List.zip_cons_cons]
      · simp only [List.zip_cons_cons, List.mem_cons]
        exact Or.inr (ih h1)

theorem lists_eq_of_zip (l1 : List Bytes) :
    ∀ l2 : List Bytes, (∀ p ∈ l1.zip l2, p.1 = p.2) → l1.length = l2.length →
      l1 = l2 := by
  induction l1 with
  | nil => intro l2 _ hl; cases l2 <;> simp_all
  | cons x xs ih =>
      intro l2 hp hl
      cases l2 with
      | nil => simp at hl
      | cons y ys =>
          have hx : x = y := hp (x, y) (by simp [List.zip_cons_cons])
          subst hx
          simp only [List.length_cons, Nat.add_right_cancel_iff] at hl
          rw [ih ys (fun p hq => hp p (by simp [List.zip_cons_cons, hq])) hl]

/-! #### Member access to the well-formedness predicates -/

theorem jwfSlots_mem (xs : List (Option JValue)) (h : jwfSlots xs = true) :
    ∀ x ∈ xs, jwf (slotValue x) = true := by
  induction xs with
  | nil => intro x hx; cases hx
  | cons s rest ih =>
      intro x hx
      cases s with
      | none =>
          simp only [jwfSlots] at h
          rcases List.mem_cons.mp hx with h1 | h1
          · subst h1; simp [slotValue, jwf]
          · exact ih h x h1
      | some v =>
          simp only [jwfSlots, Bool.and_eq_true] at h
          rcases List.mem_cons.mp hx with h1 | h1
          · subst h1; simpa [slotValue] using h.1
          · exact ih h.2 x h1

theorem jniSlots_mem (xs : List (Option JValue)) (h : jniSlots xs = true) :
    ∀ x ∈ xs, jnoInvalid (slotValue x) = true := by
  induction xs with
  | nil => intro x hx; cases hx
  | cons s rest ih =>
      intro x hx
      cases s with
      | none => simp [jniSlots] at h
      | some v =>
          simp only [jniSlots, Bool.and_eq_true] at h
          rcases List.mem_cons.mp hx with h1 | h1
          · subst h1; simpa [slotValue] using h.1
          · exact ih h.2 x h1

theorem jwfEntries_mem (es : List (Bytes × JValue)) (h : jwfEntries es = true) :
    ∀ p ∈ es, jwf p.2 = true := by
  induction es with
  | nil => intro p hp; cases hp
  | cons q rest ih =>
      obtain ⟨k, v⟩ := q
      simp only [jwfEntries, Bool.and_eq_true] at h
      intro p hp
      rcases List.mem_cons.mp hp with h1 | h1
      · subst h1; exact h.1
      · exact ih h.2 p h1

theorem jniEntries_mem (es : List (Bytes × JValue)) (h : jniEntries es = true) :
    ∀ p ∈ es, jnoInvalid p.2 = true := by
  induction es with
  | nil => intro p hp; cases hp
  | cons q rest ih =>
      obtain ⟨k, v⟩ := q
      simp only [jniEntries, Bool.and_eq_true] at h
      intro p hp
      rcases List.mem_cons.mp hp with h1 | h1
      · subst h1; exact h.1
      · exact ih h.2 p h1

/-! #### Reductions of the comparison and equality on matching kinds -/

theorem jvalue_compare_bool (env : FloatV) (b1 b2 : Bool) :
    jvalue_compare env (.jbool b1) (.jbool b2) = bti b1 - bti b2 := by
  simp [jvalue_compare, jtype_rank]

theorem jvalue_compare_num (env : FloatV) (n1 n2 : JNum) :
    jvalue_compare env (.jnum n1) (.jnum n2) = jnumber_compare n1 n2 env := by
  simp [jvalue_compare, jtype_rank]

theorem jvalue_compare_str (env : FloatV) (a1 : StrAlloc) (s1 : Bytes)
    (a2 : StrAlloc) (s2 : Bytes) :
    jvalue_compare env (.jstr a1 s1) (.jstr a2 s2) = jstring_compare s1 s2 := by
  simp [jvalue_compare, jtype_rank]

theorem jvalue_compare_arr (env : FloatV) (i : Nat) (xs : List (Option JValue))
    (j : Nat) (ys : List (Option JValue)) :
    jvalue_compare env (.jarr i xs) (.jarr j ys) =
      jarray_cmp_walk env xs ys ((xs.length : Int) - (ys.length : Int)) := by
  simp [jvalue_compare, jtype_rank]

theorem jvalue_compare_obj (env : FloatV) (i : Nat) (es : List (Bytes × JValue))
    (j : Nat) (fs : List (Bytes × JValue)) :
    jvalue_compare env (.jobj i es) (.jobj j fs) =
      jobject_cmp_walk env es fs ((es.length : Int) - (fs.length : Int))
        (sortKeys (es.map Prod.fst)) (sortKeys (fs.map Prod.fst)) := by
  simp [jvalue_compare, jtype_rank]

theorem jvalue_equal_bool (env : FloatV) (b1 b2 : Bool) :
    jvalue_equal env (.jbool b1) (.jbool b2) = (b1 == b2) := by
  simp [jvalue_equal, jtype_rank]

theorem jvalue_equal_num (env : FloatV) (n1 n2 : JNum) :
    jvalue_equal env (.jnum n1) (.jnum n2) = (jnumber_compare n1 n2 env == 0) := by
  simp [jvalue_equal, jtype_rank]

theorem jvalue_equal_str (env : FloatV) (a1 : StrAlloc) (s1 : Bytes)
    (a2 : StrAlloc) (s2 : Bytes) :
    jvalue_equal env (.jstr a1 s1) (.jstr a2 s2) = jstring_equal_bytes s1 s2 := by
  simp [jvalue_equal, jtype_rank]

theorem jvalue_equal_arr (env : FloatV) (i : Nat) (xs : List (Option JValue))
    (j : Nat) (ys : List (Option JValue)) :
    jvalue_equal env (.jarr i xs) (.jarr j ys) =
      ((xs.length == ys.length) && jarray_eq_walk env xs ys) := by
  simp [jvalue_equal, jtype_rank]

theorem jvalue_equal_obj (env : FloatV) (i : Nat) (es : List (Bytes × JValue))
    (j : Nat) (fs : List (Bytes × JValue)) :
    jvalue_equal env (.jobj i es) (.jobj j fs) =
      ((es.length == fs.length) && jobject_eq_walk env fs es) := by
  simp [jvalue_equal, jtype_rank]

/-- On values whose objects have distinct keys and whose trees contain no
`JINVALID` (neither the sentinel node nor a `NULL` array slot),
`jvalue_compare` returns 0 exactly when `jvalue_equal` holds. -/
theorem jvalue_compare_zero_iff_equal (env : FloatV) (v w : JValue)
    (hwv : jwf v = true) (hww : jwf w = true)
    (hnv : jnoInvalid v = true) (hnw : jnoInvalid w = true) :
    (jvalue_compare env v w = 0 ↔ jvalue_equal env v w = true) := by
  have H : ∀ n, ∀ v w : JValue, jsize v ≤ n → jwf v = true → jwf w = true →
      jnoInvalid v = true → jnoInvalid w = true →
      (jvalue_compare env v w = 0 ↔ jvalue_equal env v w = true) := by
    intro n
    induction n with
    | zero =>
        intro v w h _ _ _ _
        exact absurd h (by have := jsize_pos v; omega)
    | succ n ih =>
        intro v w hv hwv hww hnv hnw
        cases v with
        | jinvalid => simp [jnoInvalid] at hnv
        | jnull =>
            cases w
            case jinvalid => simp [jnoInvalid] at hnw
            all_goals
              simp [jvalue_compare, jvalue_equal, jtype_rank, bti, jis_valid,
                jis_valid_unsafe]
        | jbool b1 =>
            cases w
            case jinvalid => simp [jnoInvalid] at hnw
            case jbool b2 =>
              rw [jvalue_compare_bool, jvalue_equal_bool]
              cases b1 <;> cases b2 <;> simp [bti]
            all_goals
              simp [jvalue_compare, jvalue_equal, jtype_rank, bti, jis_valid,
                jis_valid_unsafe]
        | jnum n1 =>
            cases w
            case jinvalid => simp [jnoInvalid] at hnw
            case jnum n2 =>
              rw [jvalue_compare_num, jvalue_equal_num]
              simp
            all_goals
              simp [jvalue_compare, jvalue_equal, jtype_rank, bti, jis_valid,
                jis_valid_unsafe]
        | jstr a1 s1 =>
            cases w
            case jinvalid => simp [jnoInvalid] at hnw
            case jstr a2 s2 =>
              rw [jvalue_compare_str, jvalue_equal_str]
              exact jstring_compare_zero_iff_equal_bytes s1 s2
            all_goals
              simp [jvalue_compare, jvalue_equal, jtype_rank, bti, jis_valid,
                jis_valid_unsafe]
        | jarr i xs =>
            cases w
            case jinvalid => simp [jnoInvalid] at hnw
            case jarr j ys =>
              have hw1 : jwfSlots xs = true := by simpa [jwf] using hwv
              have hw2 : jwfSlots ys = true := by simpa [jwf] using hww
              have hn1 : jniSlots xs = true := by simpa [jnoInvalid] using hnv
              have hn2 : jniSlots ys = true := by simpa [jnoInvalid] using hnw
              have hsz : jsizeSlots xs ≤ n := by
                have hx : jsize (JValue.jarr i xs) = 1 + jsizeSlots xs := by
                  simp [jsize]
                omega
              have hpair : ∀ p ∈ xs.zip ys,
                  (jvalue_compare env (slotValue p.1) (slotValue p.2) = 0 ↔
                    jvalue_equal env (slotValue p.1) (slotValue p.2) = true) := by
                intro p hp
                have hm1 := (List.of_mem_zip hp).1
                have hm2 := (List.of_mem_zip hp).2
                exact ih (slotValue p.1) (slotValue p.2)
                  (le_of_lt (lt_of_lt_of_le (jsize_slotValue_lt_of_mem _ _ hm1) hsz))
                  (jwfSlots_mem xs hw1 _ hm1) (jwfSlots_mem ys hw2 _ hm2)
                  (jniSlots_mem xs hn1 _ hm1) (jniSlots_mem ys hn2 _ hm2)
              rw [jvalue_compare_arr, jvalue_equal_arr,
                jarray_cmp_walk_zero_iff, Bool.and_eq_true, jarray_eq_walk_iff]
              constructor
              · rintro ⟨h1, h2⟩
                exact ⟨by simp only [beq_iff_eq]; omega,
                  fun p hp => (hpair p hp).mp (h1 p hp)⟩
              · rintro ⟨h1, h2⟩
                simp only [beq_iff_eq] at h1
                exact ⟨fun p hp => (hpair p hp).mpr (h2 p hp), by omega⟩
            all_goals
              simp [jvalue_compare, jvalue_equal, jtype_rank, bti, jis_valid,
                jis_valid_unsafe]
        | jobj i es =>
            cases w
            case jinvalid => simp [jnoInvalid] at hnw
            case jobj j fs =>
              have hwe1 : nodupKeys es = true ∧ jwfEntries es = true := by
                simpa [jwf, Bool.and_eq_true] using hwv
              have hwe2 : nodupKeys fs = true ∧ jwfEntries fs = true := by
                simpa [jwf, Bool.and_eq_true] using hww
              have hne1 : jniEntries es = true := by simpa [jnoInvalid] using hnv
              have hne2 : jniEntries fs = true := by simpa [jnoInvalid] using hnw
              have hsz : jsizeEntries es ≤ n := by
                have hx : jsize (JValue.jobj i es) = 1 + jsizeEntries es := by
                  simp [jsize]
                omega
              have hiff : ∀ k x y, (k, x) ∈ es → (k, y) ∈ fs →
                  (jvalue_compare env x y = 0 ↔ jvalue_equal env x y = true) := by
                intro k x y hx hy
                exact ih x y
                  (le_of_lt (lt_of_lt_of_le (jsize_mem_entries k x es hx) hsz))
                  (jwfEntries_mem es hwe1.2 _ hx) (jwfEntries_mem fs hwe2.2 _ hy)
                  (jniEntries_mem es hne1 _ hx) (jniEntries_mem fs hne2 _ hy)
              rw [jvalue_compare_obj, jvalue_equal_obj,
                jobject_cmp_walk_zero_iff, Bool.and_eq_true, jobject_eq_walk_iff]
              constructor
              · rintro ⟨h1, h2⟩
                have hlen : es.length = fs.length := by omega
                have hks : sortKeys (es.map Prod.fst) = sortKeys (fs.map Prod.fst) := by
                  apply lists_eq_of_zip
                  · intro p hp
                    exact (jstring_compare_eq_zero_iff p.1 p.2).mp ((h1 p hp).1)
                  · simp [sortKeys, List.length_insertionSort, List.length_map, hlen]
                refine ⟨by simp only [beq_iff_eq]; exact hlen, ?_⟩
                intro p hp
                obtain ⟨k, x⟩ := p
                have hkes : k ∈ es.map Prod.fst := List.mem_map.mpr ⟨(k, x), hp, rfl⟩
                have hkks : k ∈ sortKeys (es.map Prod.fst) := by
                  simp [sortKeys, List.mem_insertionSort, hkes]
                have hkfs : k ∈ fs.map Prod.fst := by
                  have h5 := hks ▸ hkks
                  simpa [sortKeys, List.mem_insertionSort] using h5
                obtain ⟨y, hy⟩ := lookup_isSome_of_mem_keys fs k hkfs
                refine ⟨y, hy, ?_⟩
                have hzip : (k, k) ∈ (sortKeys (es.map Prod.fst)).zip
                    (sortKeys (fs.map Prod.fst)) := by
                  rw [← hks]
                  exact mem_zip_self_of_mem _ k hkks
                have hvc := (h1 (k, k) hzip).2
                have hlx : lookupD es k = x := by
                  simp [lookupD, nodupKeys_lookup es hwe1.1 k x hp]
                have hly : lookupD fs k = y := by simp [lookupD, hy]
                rw [hlx, hly] at hvc
                exact (hiff k x y hp (lookup_mem fs k y hy)).mp hvc
              · rintro ⟨h1, h2⟩
                simp only [beq_iff_eq] at h1
                have hsub : es.map Prod.fst ⊆ fs.map Prod.fst := by
                  intro k hk
                  obtain ⟨p, hp, hpk⟩ := List.mem_map.mp hk
                  obtain ⟨y, hy, _⟩ := h2 p hp
                  subst hpk
                  exact List.mem_map.mpr ⟨(p.1, y), lookup_mem fs p.1 y hy, rfl⟩
                have hperm : (es.map Prod.fst).Perm (fs.map Prod.fst) := by
                  apply List.Subperm.perm_of_length_le
                  · exact (nodup_map_fst_of_nodupKeys es hwe1.1).subperm hsub
                  · simp [List.length_map, h1]
                have hks := sortKeys_eq_of_perm _ _ hperm
                refine ⟨?_, by omega⟩
                intro p hp
                rw [← hks] at hp
                have hpe := fst_eq_snd_of_mem_zip_self _ p hp
                obtain ⟨k, k2⟩ := p
                simp only at hpe
                subst hpe
                refine ⟨jstring_compare_self k, ?_⟩
                have hkks : k ∈ sortKeys (es.map Prod.fst) := (List.of_mem_zip hp).1
                have hkes : k ∈ es.map Prod.fst := by
                  simpa [sortKeys, List.mem_insertionSort] using hkks
                obtain ⟨⟨k1, x⟩, hq, hqk⟩ := List.mem_map.mp hkes
                simp only at hqk
                subst hqk
                obtain ⟨y, hy, heq⟩ := h2 (k1, x) hq
                have hlx : lookupD es k1 = x := by
                  simp [lookupD, nodupKeys_lookup es hwe1.1 k1 x hq]
                have hly : lookupD fs k1 = y := by simp [lookupD, hy]
                rw [hlx, hly]
                exact (hiff k1 x y hq (lookup_mem fs k1 y hy)).mpr heq
            all_goals
              simp [jvalue_compare, jvalue_equal, jtype_rank, bti, jis_valid,
                jis_valid_unsafe]
  exact H (jsize v) v w (le_refl _) hwv hww hnv hnw

/-- Claim C3, counterexample: taking `v = JNULL` and `w = JINVALID` (both of
`m_type JV_NULL`), `jvalue_equal(v, w)` is true — the `JV_NULL` switch case
returns true unconditionally — while `jvalue_compare(v, w)` is
`(int)jis_valid(v) - (int)jis_valid(w) = 1`, not 0.  So
`jvalue_compare(v, w) == 0 ⇔ jvalue_equal(v, w)` fails as stated. -/
theorem claim_C3_counterexample :
    jvalue_equal .nan .jnull .jinvalid = true ∧
      jvalue_compare .nan .jnull .jinvalid = 1 := by
  constructor
  · simp [jvalue_equal, jtype_rank]
  · simp [jvalue_compare, jtype_rank, bti, jis_valid, jis_valid_unsafe]

/-- Claim C3 (amended): for all values `v`, `w` the comparison is
antisymmetric, `jvalue_compare(v, w) == -jvalue_compare(w, v)`; and on
values whose objects have distinct keys and whose trees contain no
`JINVALID` reference (neither the sentinel itself nor a `NULL` array
slot), `jvalue_compare(v, w) == 0` holds exactly when
`jvalue_equal(v, w)` does.  (The unrestricted iff fails: see the
counterexample `JNULL` versus `JINVALID`.) -/
theorem claim_C3_amended (env : FloatV) (v w : JValue) :
    jvalue_compare env v w = -jvalue_compare env w v ∧
    (jwf v = true → jwf w = true → jnoInvalid v = true → jnoInvalid w = true →
      (jvalue_compare env v w = 0 ↔ jvalue_equal env v w = true)) :=
  ⟨jvalue_compare_antisym env v w,
   fun h1 h2 h3 h4 => jvalue_compare_zero_iff_equal env v w h1 h2 h3 h4⟩

/-- Concrete instance of the amended claim C3 at `v = w = jbool true`. -/
theorem claim_C3_amended_witness :
    jwf (JValue.jbool true) = true ∧ jnoInvalid (JValue.jbool true) = true ∧
    (jvalue_compare .nan (.jbool true) (.jbool true) = 0 ↔
      jvalue_equal .nan (.jbool true) (.jbool true) = true) :=
  ⟨by simp [jwf], by simp [jnoInvalid],
   (claim_C3_amended FloatV.nan (.jbool true) (.jbool true)).2
     (by simp [jwf]) (by simp [jwf]) (by simp [jnoInvalid]) (by simp [jnoInvalid])⟩

end LibPbnJson
